import Mathlib

/-!
Verification of the Bitburner helper scripts `port-utils.js` and `utils.js`.

The development shallowly embeds the two source files:

* `port-utils.js` — JSON envelope messaging over numbered ports.  JavaScript's
  built-in `JSON.stringify` / `JSON.parse` are modelled by an executable
  printer (`strJson`) and parser (`jParse`) over a JSON value type (`Json`);
  the parser follows the full `JSON.parse` grammar (insignificant
  whitespace, strict integer parts without leading zeros, fractions and
  exponents, rejection of raw control characters in strings and of
  trailing garbage), numbers written in plain integer syntax are `Int`s
  and other numbers exact decimals, and a port is modelled as the list of
  messages it holds, front of the queue first.
* `utils.js` — network scanning and server helpers.  The host `NS` interface
  is a structure of abstract functions; the `while` loop of `getNetworkNodes`
  is embedded with an explicit fuel parameter (`none` = ran out of fuel), and
  its termination on finite networks is treated separately.  JavaScript
  objects used as string-keyed maps (`visited`, `cracks`) are modelled by
  insertion-ordered own-key lists; the `!visited[node]` guards are
  truthiness tests on a plain object (`jsTruthy`), which see the inherited
  `Object.prototype` properties and treat the falsy stored value `""` as
  absent.
-/

/-! ### Hexadecimal digits (as produced by JavaScript `toString(16)`) -/

/-- Lower-case hexadecimal digit for `n < 16` (also the decimal digit for
`n < 10`), as produced by JavaScript's `Number.prototype.toString(16)`. -/
def hexChar (n : Nat) : Char :=
  if n < 10 then Char.ofNat (48 + n) else Char.ofNat (87 + n)

/-- Value of a hexadecimal digit character, `none` for non-digits. -/
def hexVal (c : Char) : Option Nat :=
  if 48 ≤ c.toNat ∧ c.toNat ≤ 57 then some (c.toNat - 48)
  else if 97 ≤ c.toNat ∧ c.toNat ≤ 102 then some (c.toNat - 87)
  else if 65 ≤ c.toNat ∧ c.toNat ≤ 70 then some (c.toNat - 55)
  else none

/-- The four insignificant whitespace characters `JSON.parse` skips
between tokens: space, tab, line feed, carriage return. -/
def isJsonWs (c : Char) : Bool :=
  c = ' ' || c = Char.ofNat 9 || c = Char.ofNat 10 || c = Char.ofNat 13

/-- Skip insignificant whitespace before a token. -/
def skipWs : List Char → List Char
  | [] => []
  | c :: cs => if isJsonWs c then skipWs cs else c :: cs

/-! ### The JSON value type and `JSON.stringify` -/

/-- JSON values.  JavaScript has a single (double) number type; the model
splits it by surface syntax: `num n` for numbers written in plain integer
form (the only numbers this code ever serializes, printed without a
decimal point), and `decimal m e` — the exact value `m × 10^e` — for
numbers whose text carries a fraction or an exponent part.  The scripts
never observe a parsed number beyond comparing it against strings and
`null`, so the exact-decimal reading of the double is observationally
faithful here. -/
inductive Json : Type where
  | null : Json
  | bool (b : Bool) : Json
  | num (n : Int) : Json
  | decimal (m : Int) (e : Int) : Json
  | str (s : String) : Json
  | arr (elems : List Json) : Json
  | obj (fields : List (String × Json)) : Json

/-- `JSON.stringify` escaping of one character inside a string literal:
quote, backslash, the named control escapes, `\u00XX` for the remaining
control characters, and every other character unchanged. -/
def escChar (c : Char) : List Char :=
  if c = '"' then ['\\', '"']
  else if c = '\\' then ['\\', '\\']
  else if c = Char.ofNat 8 then ['\\', 'b']
  else if c = Char.ofNat 9 then ['\\', 't']
  else if c = Char.ofNat 10 then ['\\', 'n']
  else if c = Char.ofNat 12 then ['\\', 'f']
  else if c = Char.ofNat 13 then ['\\', 'r']
  else if c.toNat < 32 then
    ['\\', 'u', '0', '0', hexChar (c.toNat / 16), hexChar (c.toNat % 16)]
  else [c]

/-- Escape a whole string body. -/
def escList : List Char → List Char
  | [] => []
  | c :: cs => escChar c ++ escList cs

/-- Decimal digits of a natural number, most significant first
(JavaScript `Number.prototype.toString` for non-negative integers). -/
def natChars (n : Nat) : List Char :=
  if _h : n < 10 then [hexChar n]
  else natChars (n / 10) ++ [hexChar (n % 10)]
  termination_by n
  decreasing_by exact Nat.div_lt_self (by omega) (by omega)

/-- Decimal rendering of an integer (JavaScript `Number.prototype.toString`
for integer values). -/
def intChars (n : Int) : List Char :=
  if n < 0 then '-' :: natChars n.natAbs else natChars n.natAbs

/-- The keyword `null` as characters. -/
def nullChars : List Char := ['n', 'u', 'l', 'l']

/-- The keyword `true` as characters. -/
def trueChars : List Char := ['t', 'r', 'u', 'e']

/-- The keyword `false` as characters. -/
def falseChars : List Char := ['f', 'a', 'l', 's', 'e']

mutual

/-- `JSON.stringify` (no indent argument: no whitespace), as a character
list. -/
def strJson : Json → List Char
  | .null => nullChars
  | .bool true => trueChars
  | .bool false => falseChars
  | .num n => intChars n
  -- `JSON.stringify` prints a double in shortest decimal form; the model
  -- prints the same value in mantissa-exponent form, also a valid JSON
  -- number text for that value, keeping the printer exact on the model's
  -- number representation.
  | .decimal m e => intChars m ++ 'e' :: intChars e
  | .str s => '"' :: (escList s.data ++ ['"'])
  | .arr [] => ['[', ']']
  | .arr (v :: vs) => '[' :: ((strJson v ++ strElemsSep vs) ++ [']'])
  | .obj [] => ['\x7b', '\x7d']
  | .obj ((k, v) :: fs) => '\x7b' :: ((strField k v ++ strFieldsSep fs) ++ ['\x7d'])

/-- The `,`-separated tail elements of a serialized array. -/
def strElemsSep : List Json → List Char
  | [] => []
  | v :: vs => ',' :: (strJson v ++ strElemsSep vs)

/-- One `"key":value` member of a serialized object. -/
def strField (k : String) (v : Json) : List Char :=
  '"' :: (escList k.data ++ ('"' :: ':' :: strJson v))

/-- The `,`-separated tail members of a serialized object. -/
def strFieldsSep : List (String × Json) → List Char
  | [] => []
  | (k, v) :: fs => ',' :: (strField k v ++ strFieldsSep fs)

end

/-! ### `JSON.parse` -/

/-- Prepend a character to the string being accumulated by `pStrBody`. -/
def consParsed (c : Char) : Option (List Char × List Char) → Option (List Char × List Char)
  | some (s, r) => some (c :: s, r)
  | none => none

/-- Parse the body of a JSON string literal (everything after the opening
quote, up to and including the closing quote), unescaping as `JSON.parse`
does.  Returns the decoded characters and the unconsumed input. -/
def pStrBody : List Char → Option (List Char × List Char)
  | [] => none
  | c :: rest =>
    if c = '"' then some ([], rest)
    else if c = '\\' then
      match rest with
      | [] => none
      | e :: rest2 =>
        if e = '"' then consParsed '"' (pStrBody rest2)
        else if e = '\\' then consParsed '\\' (pStrBody rest2)
        else if e = '/' then consParsed '/' (pStrBody rest2)
        else if e = 'b' then consParsed (Char.ofNat 8) (pStrBody rest2)
        else if e = 't' then consParsed (Char.ofNat 9) (pStrBody rest2)
        else if e = 'n' then consParsed (Char.ofNat 10) (pStrBody rest2)
        else if e = 'f' then consParsed (Char.ofNat 12) (pStrBody rest2)
        else if e = 'r' then consParsed (Char.ofNat 13) (pStrBody rest2)
        else if e = 'u' then
          match rest2 with
          | h1 :: h2 :: h3 :: h4 :: rest3 =>
            match hexVal h1, hexVal h2, hexVal h3, hexVal h4 with
            | some a, some b, some c2, some d =>
              consParsed (Char.ofNat (((a * 16 + b) * 16 + c2) * 16 + d)) (pStrBody rest3)
            | _, _, _, _ => none
          | _ => none
        else none
    -- JSON rejects raw control characters (U+0000..U+001F) inside string
    -- literals; everything else stands for itself.
    else if c.toNat < 32 then none
    else consParsed c (pStrBody rest)

/-- Consume a maximal run of decimal digits, accumulating their value. -/
def pDigits : List Char → Nat → Nat × List Char
  | [], acc => (acc, [])
  | c :: rest, acc =>
    if c.isDigit then pDigits rest (acc * 10 + (c.toNat - 48)) else (acc, c :: rest)

/-- Consume a maximal digit run while also counting the digits (needed
for fraction lengths). -/
def pDigitsCnt : List Char → Nat → Nat → Nat × Nat × List Char
  | [], acc, len => (acc, len, [])
  | c :: rest, acc, len =>
    if c.isDigit then pDigitsCnt rest (acc * 10 + (c.toNat - 48)) (len + 1)
    else (acc, len, c :: rest)

/-- A digit run of at least one digit, with its length; leading zeros are
allowed (JSON permits them in fraction and exponent digits). -/
def pDigitRun : List Char → Option (Nat × Nat × List Char)
  | [] => none
  | c :: rest => if c.isDigit then some (pDigitsCnt rest (c.toNat - 48) 1) else none

/-- The integer part of a JSON number: a single `0`, or a nonzero digit
followed by more digits — JSON forbids leading zeros, so after an initial
`0` the integer part ends at once. -/
def pIntPart : List Char → Option (Nat × List Char)
  | [] => none
  | c :: rest =>
    if c = '0' then some (0, rest)
    else if c.isDigit then some (pDigits rest (c.toNat - 48))
    else none

/-- The optional exponent part of a JSON number; `none` in the returned
pair means no `e`/`E` follows here. -/
def pExpPart : List Char → Option (Option Int × List Char)
  | [] => some (none, [])
  | c :: rest =>
    if c = 'e' ∨ c = 'E' then
      match rest with
      | '+' :: r2 =>
        match pDigitRun r2 with
        | some (v, _, r) => some (some (v : Int), r)
        | none => none
      | '-' :: r2 =>
        match pDigitRun r2 with
        | some (v, _, r) => some (some (-(v : Int)), r)
        | none => none
      | r2 =>
        match pDigitRun r2 with
        | some (v, _, r) => some (some (v : Int), r)
        | none => none
    else some (none, c :: rest)

/-- Apply the number's optional leading minus. -/
def numSign (neg : Bool) (n : Nat) : Int := if neg then -(n : Int) else (n : Int)

/-- A JSON number after its optional minus: integer part, optional
fraction, optional exponent.  Plain integer syntax yields `Json.num`; a
fraction or exponent yields `Json.decimal` carrying the exact value. -/
def pNumBody (neg : Bool) (input : List Char) : Option (Json × List Char) :=
  match pIntPart input with
  | none => none
  | some (i, r1) =>
    match r1 with
    | '.' :: r2 =>
      (match pDigitRun r2 with
      | none => none
      | some (f, flen, r3) =>
        match pExpPart r3 with
        | none => none
        | some (oe, r4) =>
          some (.decimal (numSign neg (i * 10 ^ flen + f)) (oe.getD 0 - (flen : Int)), r4))
    | _ =>
      match pExpPart r1 with
      | none => none
      | some (none, r4) => some (.num (numSign neg i), r4)
      | some (some ex, r4) => some (.decimal (numSign neg i) ex, r4)

/-- A complete JSON number, with its optional leading minus. -/
def pNumber : List Char → Option (Json × List Char)
  | '-' :: rest => pNumBody true rest
  | input => pNumBody false input

mutual

/-- Fueled JSON value parser: the recursive core of `JSON.parse`.  It
skips insignificant whitespace before each token.  The fuel only bounds
the recursion depth — every unit consumed corresponds to at least one
input character, so the `cs.length + 1` that `jParse` supplies always
suffices. -/
def pVal : Nat → List Char → Option (Json × List Char)
  | 0, _ => none
  | fuel + 1, input =>
    match skipWs input with
    | [] => none
    | c :: rest =>
      if c = 'n' then
        match rest with
        | 'u' :: 'l' :: 'l' :: r => some (.null, r)
        | _ => none
      else if c = 't' then
        match rest with
        | 'r' :: 'u' :: 'e' :: r => some (.bool true, r)
        | _ => none
      else if c = 'f' then
        match rest with
        | 'a' :: 'l' :: 's' :: 'e' :: r => some (.bool false, r)
        | _ => none
      else if c = '"' then
        match pStrBody rest with
        | some (s, r) => some (.str (String.mk s), r)
        | none => none
      else if c = '[' then
        match skipWs rest with
        | ']' :: r => some (.arr [], r)
        | r2 =>
          match pVal fuel r2 with
          | some (v, r) =>
            match pElems fuel r with
            | some (vs, r3) => some (.arr (v :: vs), r3)
            | none => none
          | none => none
      else if c = '\x7b' then
        match skipWs rest with
        | '\x7d' :: r => some (.obj [], r)
        | r2 =>
          match pField fuel r2 with
          | some (kv, r) =>
            match pFields fuel r with
            | some (kvs, r3) => some (.obj (kv :: kvs), r3)
            | none => none
          | none => none
      else if c = '-' ∨ c.isDigit then pNumber (c :: rest)
      else none

/-- Parse the tail of an array: skip whitespace, then either the closing
`]` or a `,`-prefixed element followed by more tail. -/
def pElems : Nat → List Char → Option (List Json × List Char)
  | 0, _ => none
  | fuel + 1, input =>
    match skipWs input with
    | ']' :: rest => some ([], rest)
    | ',' :: rest =>
      match pVal fuel rest with
      | some (v, r) =>
        match pElems fuel r with
        | some (vs, r2) => some (v :: vs, r2)
        | none => none
      | none => none
    | _ => none

/-- Parse one `"key":value` member of an object, whitespace allowed
around the key and before the colon. -/
def pField : Nat → List Char → Option ((String × Json) × List Char)
  | 0, _ => none
  | fuel + 1, input =>
    match skipWs input with
    | '"' :: rest =>
      match pStrBody rest with
      | some (k, r) =>
        match skipWs r with
        | ':' :: r2 =>
          match pVal fuel r2 with
          | some (v, r3) => some ((String.mk k, v), r3)
          | none => none
        | _ => none
      | none => none
    | _ => none

/-- Parse the tail of an object: skip whitespace, then either the closing
brace or a `,`-prefixed member followed by more tail. -/
def pFields : Nat → List Char → Option (List (String × Json) × List Char)
  | 0, _ => none
  | fuel + 1, input =>
    match skipWs input with
    | '\x7d' :: rest => some ([], rest)
    | ',' :: rest =>
      match pField fuel rest with
      | some (kv, r) =>
        match pFields fuel r with
        | some (kvs, r2) => some (kv :: kvs, r2)
        | none => none
      | none => none
    | _ => none

end

/-- `JSON.parse` on a character list: parse one value consuming the entire
input (`none` models a thrown `SyntaxError`).  The fuel `cs.length + 1`
always suffices, since every unit of fuel consumed corresponds to at least
one character of input. -/
def jParseChars (cs : List Char) : Option Json :=
  match pVal (cs.length + 1) cs with
  | some (v, r) => if skipWs r = [] then some v else none
  | none => none

/-- `JSON.parse` on a string. -/
def jParse (s : String) : Option Json :=
  jParseChars s.data

/-! ### Printer/parser roundtrip: characters and strings -/

lemma hexVal_hexChar {n : Nat} (h : n < 16) : hexVal (hexChar n) = some n := by
  have H : ∀ m, m < 16 → hexVal (hexChar m) = some m := by decide
  exact H n h

lemma isDigit_hexChar {n : Nat} (h : n < 10) : (hexChar n).isDigit = true := by
  have H : ∀ m, m < 10 → (hexChar m).isDigit = true := by decide
  exact H n h

lemma toNat_hexChar_digit {n : Nat} (h : n < 10) : (hexChar n).toNat = 48 + n := by
  have H : ∀ m, m < 10 → (hexChar m).toNat = 48 + m := by decide
  exact H n h

lemma pStrBody_quote (tail : List Char) : pStrBody ('"' :: tail) = some ([], tail) := by
  rw [pStrBody.eq_def]; simp +decide

lemma pStrBody_escQuote (tail : List Char) :
    pStrBody ('\\' :: '"' :: tail) = consParsed '"' (pStrBody tail) := by
  rw [pStrBody.eq_def]; simp +decide

lemma pStrBody_escBackslash (tail : List Char) :
    pStrBody ('\\' :: '\\' :: tail) = consParsed '\\' (pStrBody tail) := by
  rw [pStrBody.eq_def]; simp +decide

lemma pStrBody_escB (tail : List Char) :
    pStrBody ('\\' :: 'b' :: tail) = consParsed (Char.ofNat 8) (pStrBody tail) := by
  rw [pStrBody.eq_def]; simp +decide

lemma pStrBody_escT (tail : List Char) :
    pStrBody ('\\' :: 't' :: tail) = consParsed (Char.ofNat 9) (pStrBody tail) := by
  rw [pStrBody.eq_def]; simp +decide

lemma pStrBody_escN (tail : List Char) :
    pStrBody ('\\' :: 'n' :: tail) = consParsed (Char.ofNat 10) (pStrBody tail) := by
  rw [pStrBody.eq_def]; simp +decide

lemma pStrBody_escF (tail : List Char) :
    pStrBody ('\\' :: 'f' :: tail) = consParsed (Char.ofNat 12) (pStrBody tail) := by
  rw [pStrBody.eq_def]; simp +decide

lemma pStrBody_escR (tail : List Char) :
    pStrBody ('\\' :: 'r' :: tail) = consParsed (Char.ofNat 13) (pStrBody tail) := by
  rw [pStrBody.eq_def]; simp +decide

lemma pStrBody_escU (h1 h2 h3 h4 : Char) (tail : List Char) :
    pStrBody ('\\' :: 'u' :: h1 :: h2 :: h3 :: h4 :: tail) =
      match hexVal h1, hexVal h2, hexVal h3, hexVal h4 with
      | some a, some b, some c2, some d =>
        consParsed (Char.ofNat (((a * 16 + b) * 16 + c2) * 16 + d)) (pStrBody tail)
      | _, _, _, _ => none := by
  rw [pStrBody.eq_def]; simp +decide

lemma pStrBody_other (c : Char) (tail : List Char) (h1 : c ≠ '"') (h2 : c ≠ '\\')
    (h3 : ¬ c.toNat < 32) : pStrBody (c :: tail) = consParsed c (pStrBody tail) := by
  rw [pStrBody.eq_def]; simp [h1, h2, h3]

lemma pStrBody_escList (cs : List Char) (rest : List Char) :
    pStrBody (escList cs ++ '"' :: rest) = some (cs, rest) := by
  induction cs with
  | nil => simp [escList, pStrBody_quote]
  | cons c cs ih =>
    have hesc : escList (c :: cs) = escChar c ++ escList cs := rfl
    rw [hesc, List.append_assoc]
    unfold escChar
    split_ifs with h1 h2 h3 h4 h5 h6 h7 h8
    · subst h1; simp [pStrBody_escQuote, ih, consParsed]
    · subst h2; simp [pStrBody_escBackslash, ih, consParsed]
    · subst h3; simp [pStrBody_escB, ih, consParsed]
    · subst h4; simp [pStrBody_escT, ih, consParsed]
    · subst h5; simp [pStrBody_escN, ih, consParsed]
    · subst h6; simp [pStrBody_escF, ih, consParsed]
    · subst h7; simp [pStrBody_escR, ih, consParsed]
    · -- the \u00XX escape used for the remaining control characters
      have hdiv : c.toNat / 16 < 16 := by omega
      have hmod : c.toNat % 16 < 16 := by omega
      simp only [List.cons_append, List.nil_append]
      rw [pStrBody_escU]
      have h0 : hexVal '0' = some 0 := rfl
      rw [h0, hexVal_hexChar hdiv, hexVal_hexChar hmod]
      have harith : ((0 * 16 + 0) * 16 + c.toNat / 16) * 16 + c.toNat % 16 = c.toNat := by omega
      simp only [harith, Char.ofNat_toNat, ih, consParsed]
    · rw [List.cons_append, List.nil_append, pStrBody_other c _ h1 h2 h8, ih]
      simp [consParsed]

/-! ### Printer/parser roundtrip: numbers -/

/-- The next character of the unconsumed input is not a decimal digit (true
of `]`, a comma, a closing brace, a quote, or the end of input), so a
number parse stops exactly at the printed digits. -/
def noDigitHead : List Char → Bool
  | [] => true
  | c :: _ => !c.isDigit

/-- The unconsumed input cannot extend a JSON number: it is empty or
opens with a character that is neither a digit nor `.`, `e`, `E` — true
wherever the printer places a number (before `,`, `]`, a closing brace,
or the end of input). -/
def noNumExt : List Char → Bool
  | [] => true
  | c :: _ => !(c.isDigit || c = '.' || c = 'e' || c = 'E')

lemma noDigitHead_of_noNumExt : ∀ rest : List Char, noNumExt rest = true →
    noDigitHead rest = true := by
  intro rest h
  cases rest with
  | nil => rfl
  | cons c r =>
    simp only [noNumExt, Bool.not_eq_true', Bool.or_eq_false_iff] at h
    simp [noDigitHead, h.1.1.1]

lemma pDigits_stop (rest : List Char) (acc : Nat) (h : noDigitHead rest = true) :
    pDigits rest acc = (acc, rest) := by
  cases rest with
  | nil => simp [pDigits]
  | cons c r =>
    simp only [noDigitHead, Bool.not_eq_true'] at h
    simp [pDigits, h]

lemma pDigits_natChars : ∀ (n acc : Nat) (rest : List Char),
    pDigits (natChars n ++ rest) acc = pDigits rest (acc * 10 ^ (natChars n).length + n) := by
  intro n
  induction n using Nat.strong_induction_on with
  | _ n ih =>
    intro acc rest
    rw [natChars.eq_def]
    split_ifs with h
    · simp [pDigits, isDigit_hexChar h, toNat_hexChar_digit h]
    · have hlt : n / 10 < n := Nat.div_lt_self (by omega) (by omega)
      rw [List.append_assoc, ih (n / 10) hlt]
      have h10 : n % 10 < 10 := by omega
      simp [pDigits, isDigit_hexChar h10, toNat_hexChar_digit h10]
      congr 1
      have hdm : 10 * (n / 10) + n % 10 = n := Nat.div_add_mod n 10
      rw [pow_succ]
      ring_nf
      omega

lemma natChars_head : ∀ n : Nat, ∃ c cs, natChars n = c :: cs ∧ c.isDigit = true := by
  intro n
  induction n using Nat.strong_induction_on with
  | _ n ih =>
    rw [natChars.eq_def]
    split_ifs with h
    · exact ⟨hexChar n, [], rfl, isDigit_hexChar h⟩
    · have hlt : n / 10 < n := Nat.div_lt_self (by omega) (by omega)
      obtain ⟨c, cs, hc, hd⟩ := ih (n / 10) hlt
      exact ⟨c, cs ++ [hexChar (n % 10)], by rw [hc]; rfl, hd⟩

lemma natChars_head_pos : ∀ n : Nat, 0 < n →
    ∃ c cs, natChars n = c :: cs ∧ c.isDigit = true ∧ c ≠ '0' := by
  intro n
  induction n using Nat.strong_induction_on with
  | _ n ih =>
    intro hpos
    rw [natChars.eq_def]
    split_ifs with h
    · refine ⟨hexChar n, [], rfl, isDigit_hexChar h, ?_⟩
      have hz : ∀ m : Nat, m < 10 → (0 < m → hexChar m ≠ '0') := by decide
      exact hz n h hpos
    · have hlt : n / 10 < n := Nat.div_lt_self (by omega) (by omega)
      obtain ⟨c, cs, hc, hd, hz⟩ := ih (n / 10) hlt (by omega)
      exact ⟨c, cs ++ [hexChar (n % 10)], by rw [hc]; rfl, hd, hz⟩

lemma pIntPart_natChars (n : Nat) (rest : List Char) (hrest : noDigitHead rest = true) :
    pIntPart (natChars n ++ rest) = some (n, rest) := by
  rcases Nat.eq_zero_or_pos n with hz | hpos
  · subst hz
    have h0 : natChars 0 = ['0'] := by rw [natChars.eq_def]; norm_num; decide
    rw [h0]
    simp [pIntPart]
  · obtain ⟨c, cs, hc, hd, hnz⟩ := natChars_head_pos n hpos
    have key : pDigits (natChars n ++ rest) 0 = (n, rest) := by
      rw [pDigits_natChars, pDigits_stop rest _ hrest]
      simp
    rw [hc] at key
    simp only [List.cons_append, pDigits, hd, if_true] at key
    rw [hc, List.cons_append]
    have hstep : pIntPart (c :: (cs ++ rest)) = some (pDigits (cs ++ rest) (c.toNat - 48)) := by
      simp [pIntPart, hnz, hd]
    rw [hstep]
    simp only [Nat.zero_mul, Nat.zero_add] at key
    exact congrArg some key

lemma pDigitsCnt_stop (rest : List Char) (acc len : Nat) (h : noDigitHead rest = true) :
    pDigitsCnt rest acc len = (acc, len, rest) := by
  cases rest with
  | nil => simp [pDigitsCnt]
  | cons c r =>
    simp only [noDigitHead, Bool.not_eq_true'] at h
    simp [pDigitsCnt, h]

lemma pDigitsCnt_natChars : ∀ (n acc len : Nat) (rest : List Char),
    pDigitsCnt (natChars n ++ rest) acc len
      = pDigitsCnt rest (acc * 10 ^ (natChars n).length + n) (len + (natChars n).length) := by
  intro n
  induction n using Nat.strong_induction_on with
  | _ n ih =>
    intro acc len rest
    rw [natChars.eq_def]
    split_ifs with h
    · simp [pDigitsCnt, isDigit_hexChar h, toNat_hexChar_digit h]
    · have hlt : n / 10 < n := Nat.div_lt_self (by omega) (by omega)
      rw [List.append_assoc, ih (n / 10) hlt]
      have h10 : n % 10 < 10 := by omega
      simp [pDigitsCnt, isDigit_hexChar h10, toNat_hexChar_digit h10]
      have hv : (acc * 10 ^ (natChars (n / 10)).length + n / 10) * 10 + n % 10
          = acc * 10 ^ ((natChars (n / 10)).length + 1) + n := by
        have hdm : 10 * (n / 10) + n % 10 = n := Nat.div_add_mod n 10
        rw [pow_succ]
        ring_nf
        omega
      have hl : len + (natChars (n / 10)).length + 1
          = len + ((natChars (n / 10)).length + 1) := by omega
      rw [hv, hl]

lemma pDigitRun_natChars (n : Nat) (rest : List Char) (hrest : noDigitHead rest = true) :
    pDigitRun (natChars n ++ rest) = some (n, (natChars n).length, rest) := by
  obtain ⟨c, cs, hc, hd⟩ := natChars_head n
  have key : pDigitsCnt (natChars n ++ rest) 0 0 = (n, (natChars n).length, rest) := by
    rw [pDigitsCnt_natChars, pDigitsCnt_stop rest _ _ hrest]
    simp
  rw [hc] at key
  simp only [List.cons_append, pDigitsCnt, hd, if_true] at key
  rw [hc, List.cons_append]
  simp only [pDigitRun, hd, if_true]
  simp only [Nat.zero_mul, Nat.zero_add] at key
  exact congrArg some key

lemma pExpPart_stop (rest : List Char) (h : noNumExt rest = true) :
    pExpPart rest = some (none, rest) := by
  cases rest with
  | nil => rfl
  | cons c r =>
    simp only [noNumExt, Bool.not_eq_true', Bool.or_eq_false_iff,
      decide_eq_false_iff_not] at h
    simp [pExpPart, h.1.2, h.2]

lemma pNumBody_natChars_noExt (neg : Bool) (a : Nat) (rest : List Char)
    (hrest : noNumExt rest = true) :
    pNumBody neg (natChars a ++ rest) = some (.num (numSign neg a), rest) := by
  have hdh : noDigitHead rest = true := noDigitHead_of_noNumExt rest hrest
  simp only [pNumBody, pIntPart_natChars a rest hdh]
  cases rest with
  | nil => simp [pExpPart]
  | cons c r =>
    have hcdot : c ≠ '.' := by
      simp only [noNumExt, Bool.not_eq_true', Bool.or_eq_false_iff,
        decide_eq_false_iff_not] at hrest
      exact hrest.1.1.2
    simp [hcdot, pExpPart_stop (c :: r) hrest]

/-- Printer/parser roundtrip for plain-integer numbers. -/
lemma pNumber_intChars (n : Int) (rest : List Char) (hrest : noNumExt rest = true) :
    pNumber (intChars n ++ rest) = some (.num n, rest) := by
  by_cases hneg : n < 0
  · have hin : intChars n ++ rest = '-' :: (natChars n.natAbs ++ rest) := by
      simp [intChars, hneg]
    rw [hin]
    show pNumBody true (natChars n.natAbs ++ rest) = some (.num n, rest)
    rw [pNumBody_natChars_noExt true n.natAbs rest hrest]
    have hsgn : numSign true n.natAbs = n := by
      show -((n.natAbs : Int)) = n
      omega
    rw [hsgn]
  · have hin : intChars n ++ rest = natChars n.natAbs ++ rest := by
      simp [intChars, hneg]
    rw [hin]
    obtain ⟨c, cs, hc, hd⟩ := natChars_head n.natAbs
    have hcm : c ≠ '-' := by intro h; subst h; exact absurd hd (by decide)
    rw [hc, List.cons_append]
    have hstep : pNumber (c :: (cs ++ rest)) = pNumBody false (c :: (cs ++ rest)) := by
      simp [pNumber, hcm]
    rw [hstep, ← List.cons_append, ← hc]
    rw [pNumBody_natChars_noExt false n.natAbs rest hrest]
    have hsgn : numSign false n.natAbs = n := by
      show ((n.natAbs : Int)) = n
      omega
    rw [hsgn]

lemma pExpPart_e_intChars (e : Int) (rest : List Char) (hdh : noDigitHead rest = true) :
    pExpPart ('e' :: (intChars e ++ rest)) = some (some e, rest) := by
  by_cases hneg : e < 0
  · have hin : intChars e ++ rest = '-' :: (natChars e.natAbs ++ rest) := by
      simp [intChars, hneg]
    rw [hin]
    have h1 : pExpPart ('e' :: '-' :: (natChars e.natAbs ++ rest))
        = (match pDigitRun (natChars e.natAbs ++ rest) with
          | some (v, _, r) => some (some (-(v : Int)), r)
          | none => none) := by
      simp +decide [pExpPart]
    rw [h1, pDigitRun_natChars _ _ hdh]
    show some (some (-((e.natAbs : Int))), rest) = some (some e, rest)
    have hsgn : -((e.natAbs : Int)) = e := by omega
    rw [hsgn]
  · have hin : intChars e ++ rest = natChars e.natAbs ++ rest := by
      simp [intChars, hneg]
    rw [hin]
    obtain ⟨c, cs, hc, hd⟩ := natChars_head e.natAbs
    have hp : c ≠ '+' := by intro h; subst h; exact absurd hd (by decide)
    have hm : c ≠ '-' := by intro h; subst h; exact absurd hd (by decide)
    rw [hc, List.cons_append]
    have h1 : pExpPart ('e' :: c :: (cs ++ rest))
        = (match pDigitRun (c :: (cs ++ rest)) with
          | some (v, _, r) => some (some ((v : Int)), r)
          | none => none) := by
      simp +decide [pExpPart, hp, hm]
    rw [h1, ← List.cons_append, ← hc, pDigitRun_natChars _ _ hdh]
    show some (some ((e.natAbs : Int)), rest) = some (some e, rest)
    have hsgn : ((e.natAbs : Int)) = e := by omega
    rw [hsgn]

lemma pNumBody_decimal (neg : Bool) (a : Nat) (e : Int) (rest : List Char)
    (hrest : noNumExt rest = true) :
    pNumBody neg (natChars a ++ ('e' :: (intChars e ++ rest)))
      = some (.decimal (numSign neg a) e, rest) := by
  have hdh : noDigitHead ('e' :: (intChars e ++ rest)) = true := rfl
  calc pNumBody neg (natChars a ++ ('e' :: (intChars e ++ rest)))
      = (match pExpPart ('e' :: (intChars e ++ rest)) with
        | none => none
        | some (none, r4) => some (Json.num (numSign neg a), r4)
        | some (some ex, r4) => some (Json.decimal (numSign neg a) ex, r4)) := by
        simp only [pNumBody, pIntPart_natChars a _ hdh]
        rfl
    _ = some (.decimal (numSign neg a) e, rest) := by
        rw [pExpPart_e_intChars e rest (noDigitHead_of_noNumExt rest hrest)]

/-- Printer/parser roundtrip for mantissa-exponent numbers. -/
lemma pNumber_decimalChars (m e : Int) (rest : List Char) (hrest : noNumExt rest = true) :
    pNumber ((intChars m ++ 'e' :: intChars e) ++ rest) = some (.decimal m e, rest) := by
  have hshape : (intChars m ++ 'e' :: intChars e) ++ rest
      = intChars m ++ ('e' :: (intChars e ++ rest)) := by
    simp
  rw [hshape]
  by_cases hneg : m < 0
  · have hin : intChars m ++ ('e' :: (intChars e ++ rest))
        = '-' :: (natChars m.natAbs ++ ('e' :: (intChars e ++ rest))) := by
      simp [intChars, hneg]
    rw [hin]
    show pNumBody true (natChars m.natAbs ++ ('e' :: (intChars e ++ rest)))
        = some (.decimal m e, rest)
    rw [pNumBody_decimal true m.natAbs e rest hrest]
    have hsgn : numSign true m.natAbs = m := by
      show -((m.natAbs : Int)) = m
      omega
    rw [hsgn]
  · have hin : intChars m ++ ('e' :: (intChars e ++ rest))
        = natChars m.natAbs ++ ('e' :: (intChars e ++ rest)) := by
      simp [intChars, hneg]
    rw [hin]
    obtain ⟨c, cs, hc, hd⟩ := natChars_head m.natAbs
    have hcm : c ≠ '-' := by intro h; subst h; exact absurd hd (by decide)
    rw [hc, List.cons_append]
    have hstep : pNumber (c :: (cs ++ ('e' :: (intChars e ++ rest))))
        = pNumBody false (c :: (cs ++ ('e' :: (intChars e ++ rest)))) := by
      simp [pNumber, hcm]
    rw [hstep, ← List.cons_append, ← hc]
    rw [pNumBody_decimal false m.natAbs e rest hrest]
    have hsgn : numSign false m.natAbs = m := by
      show ((m.natAbs : Int)) = m
      omega
    rw [hsgn]

/-! ### Fuel accounting for the parser -/

mutual

/-- Fuel sufficient for `pVal` to parse the serialization of a value. -/
def jFuel : Json → Nat
  | .null => 1
  | .bool _ => 1
  | .num _ => 1
  | .decimal _ _ => 1
  | .str _ => 1
  | .arr [] => 1
  | .arr (v :: vs) => 2 + jFuel v + jFuelElems vs
  | .obj [] => 1
  | .obj ((_, v) :: fs) => 3 + jFuel v + jFuelFields fs

/-- Fuel sufficient for `pElems` to parse a serialized array tail. -/
def jFuelElems : List Json → Nat
  | [] => 0
  | v :: vs => 1 + jFuel v + jFuelElems vs

/-- Fuel sufficient for `pFields` to parse a serialized object tail. -/
def jFuelFields : List (String × Json) → Nat
  | [] => 0
  | (_, v) :: fs => 2 + jFuel v + jFuelFields fs

end

lemma jFuel_pos (v : Json) : 1 ≤ jFuel v := by
  cases v with
  | null => simp [jFuel]
  | bool b => simp [jFuel]
  | num n => simp [jFuel]
  | decimal m e => simp [jFuel]
  | str s => simp [jFuel]
  | arr l => cases l <;> (simp [jFuel]; try omega)
  | obj l =>
    cases l with
    | nil => simp [jFuel]
    | cons kv fs => obtain ⟨k, v⟩ := kv; simp [jFuel]; omega

/-! ### Leading characters of serialized values -/

/-- The characters that can begin `strJson` output. -/
def jsonLead (c : Char) : Bool :=
  c = 'n' || c = 't' || c = 'f' || c = '"' || c = '[' || c = '\x7b' || c = '-' || c.isDigit

lemma strJson_head : ∀ v : Json, ∃ c cs, strJson v = c :: cs ∧ jsonLead c = true := by
  intro v
  cases v with
  | null => exact ⟨'n', ['u', 'l', 'l'], by simp [strJson, nullChars], by decide⟩
  | bool b =>
    cases b with
    | false => exact ⟨'f', ['a', 'l', 's', 'e'], by simp [strJson, falseChars], by decide⟩
    | true => exact ⟨'t', ['r', 'u', 'e'], by simp [strJson, trueChars], by decide⟩
  | num n =>
    by_cases h : n < 0
    · refine ⟨'-', natChars n.natAbs, ?_, by decide⟩
      simp [strJson, intChars, h]
    · obtain ⟨c, cs, hc, hd⟩ := natChars_head n.natAbs
      refine ⟨c, cs, ?_, ?_⟩
      · simp [strJson, intChars, h, hc]
      · simp [jsonLead, hd]
  | decimal m e =>
    by_cases h : m < 0
    · refine ⟨'-', natChars m.natAbs ++ 'e' :: intChars e, ?_, by decide⟩
      simp [strJson, intChars, h]
    · obtain ⟨c, cs, hc, hd⟩ := natChars_head m.natAbs
      refine ⟨c, cs ++ 'e' :: intChars e, ?_, ?_⟩
      · simp [strJson, intChars, h, hc]
      · simp [jsonLead, hd]
  | str s => refine ⟨'"', escList s.data ++ ['"'], by simp [strJson], by decide⟩
  | arr l =>
    cases l with
    | nil => exact ⟨'[', [']'], by simp [strJson], by decide⟩
    | cons v vs =>
      refine ⟨'[', (strJson v ++ strElemsSep vs) ++ [']'], by simp [strJson], by decide⟩
  | obj l =>
    cases l with
    | nil => exact ⟨'\x7b', ['\x7d'], by simp [strJson], by decide⟩
    | cons kv fs =>
      obtain ⟨k, v⟩ := kv
      refine ⟨'\x7b', (strField k v ++ strFieldsSep fs) ++ ['\x7d'], by simp [strJson], by decide⟩

lemma jsonLead_ne_close {c : Char} (h : jsonLead c = true) : c ≠ ']' ∧ c ≠ '\x7d' := by
  constructor <;> (intro he; subst he; revert h; decide)

lemma jsonLead_not_ws {c : Char} (h : jsonLead c = true) : isJsonWs c = false := by
  cases hjw : isJsonWs c
  · rfl
  · exfalso
    simp only [isJsonWs, Bool.or_eq_true, decide_eq_true_eq] at hjw
    rcases hjw with ((h1 | h1) | h1) | h1 <;> (subst h1; exact absurd h (by decide))


/-! ### One-step reduction lemmas for the parser -/

lemma pVal_null (fuel : Nat) (rest : List Char) :
    pVal (fuel + 1) ('n' :: 'u' :: 'l' :: 'l' :: rest) = some (.null, rest) := rfl

lemma pVal_true (fuel : Nat) (rest : List Char) :
    pVal (fuel + 1) ('t' :: 'r' :: 'u' :: 'e' :: rest) = some (.bool true, rest) := rfl

lemma pVal_false (fuel : Nat) (rest : List Char) :
    pVal (fuel + 1) ('f' :: 'a' :: 'l' :: 's' :: 'e' :: rest) = some (.bool false, rest) := rfl

lemma pVal_quote (fuel : Nat) (rest : List Char) :
    pVal (fuel + 1) ('"' :: rest) =
      match pStrBody rest with
      | some (s, r) => some (.str (String.mk s), r)
      | none => none := rfl

lemma pVal_dash (fuel : Nat) (rest : List Char) :
    pVal (fuel + 1) ('-' :: rest) = pNumber ('-' :: rest) := rfl

lemma pVal_digit (fuel : Nat) (c : Char) (rest : List Char) (hd : c.isDigit = true) :
    pVal (fuel + 1) (c :: rest) = pNumber (c :: rest) := by
  have h1 : c ≠ 'n' := by intro h; subst h; exact absurd hd (by decide)
  have h2 : c ≠ 't' := by intro h; subst h; exact absurd hd (by decide)
  have h3 : c ≠ 'f' := by intro h; subst h; exact absurd hd (by decide)
  have h4 : c ≠ '"' := by intro h; subst h; exact absurd hd (by decide)
  have h5 : c ≠ '[' := by intro h; subst h; exact absurd hd (by decide)
  have h6 : c ≠ '\x7b' := by intro h; subst h; exact absurd hd (by decide)
  have hw : isJsonWs c = false := by
    cases hjw : isJsonWs c
    · rfl
    · exfalso
      simp only [isJsonWs, Bool.or_eq_true, decide_eq_true_eq] at hjw
      rcases hjw with ((h | h) | h) | h <;> (subst h; exact absurd hd (by decide))
  simp [pVal, skipWs, hw, h1, h2, h3, h4, h5, h6, hd]

lemma pVal_arr_nil (fuel : Nat) (rest : List Char) :
    pVal (fuel + 1) ('[' :: ']' :: rest) = some (.arr [], rest) := rfl

lemma pVal_arr_cons (fuel : Nat) (c : Char) (cs : List Char) (h : c ≠ ']')
    (hw : isJsonWs c = false) :
    pVal (fuel + 1) ('[' :: c :: cs) =
      match pVal fuel (c :: cs) with
      | some (v, r) =>
        match pElems fuel r with
        | some (vs, r2) => some (.arr (v :: vs), r2)
        | none => none
      | none => none := by
  simp +decide [pVal, skipWs, hw, h]

lemma pVal_obj_nil (fuel : Nat) (rest : List Char) :
    pVal (fuel + 1) ('\x7b' :: '\x7d' :: rest) = some (.obj [], rest) := rfl

lemma pVal_obj_cons (fuel : Nat) (c : Char) (cs : List Char) (h : c ≠ '\x7d')
    (hw : isJsonWs c = false) :
    pVal (fuel + 1) ('\x7b' :: c :: cs) =
      match pField fuel (c :: cs) with
      | some (kv, r) =>
        match pFields fuel r with
        | some (kvs, r2) => some (.obj (kv :: kvs), r2)
        | none => none
      | none => none := by
  simp +decide [pVal, skipWs, hw, h]

lemma pElems_close (fuel : Nat) (rest : List Char) :
    pElems (fuel + 1) (']' :: rest) = some ([], rest) := rfl

lemma pElems_comma (fuel : Nat) (rest : List Char) :
    pElems (fuel + 1) (',' :: rest) =
      match pVal fuel rest with
      | some (v, r) =>
        match pElems fuel r with
        | some (vs, r2) => some (v :: vs, r2)
        | none => none
      | none => none := rfl

lemma pField_quote (fuel : Nat) (rest : List Char) :
    pField (fuel + 1) ('"' :: rest) =
      match pStrBody rest with
      | some (k, r) =>
        match skipWs r with
        | ':' :: r2 =>
          match pVal fuel r2 with
          | some (v, r3) => some ((String.mk k, v), r3)
          | none => none
        | _ => none
      | none => none := rfl

lemma pFields_close (fuel : Nat) (rest : List Char) :
    pFields (fuel + 1) ('\x7d' :: rest) = some ([], rest) := rfl

lemma pFields_comma (fuel : Nat) (rest : List Char) :
    pFields (fuel + 1) (',' :: rest) =
      match pField fuel rest with
      | some (kv, r) =>
        match pFields fuel r with
        | some (kvs, r2) => some (kv :: kvs, r2)
        | none => none
      | none => none := rfl

lemma String.mk_data (s : String) : String.mk s.data = s := rfl

lemma noNumExt_sep (vs : List Json) (rest : List Char) :
    noNumExt (strElemsSep vs ++ ']' :: rest) = true := by
  cases vs <;> simp +decide [strElemsSep, noNumExt]

lemma noNumExt_fsep (fs : List (String × Json)) (rest : List Char) :
    noNumExt (strFieldsSep fs ++ '\x7d' :: rest) = true := by
  cases fs with
  | nil => simp +decide [strFieldsSep, noNumExt]
  | cons kv fs => obtain ⟨k, v⟩ := kv; simp +decide [strFieldsSep, noNumExt]

/-- The printer/parser roundtrip, by induction on parser fuel: parsing the
serialization of any value (followed by input that cannot extend a numeric
literal) succeeds, returns that value and consumes exactly the
serialization. -/
theorem parserRound : ∀ fuel : Nat,
    (∀ (v : Json) (rest : List Char), jFuel v ≤ fuel → noNumExt rest = true →
      pVal fuel (strJson v ++ rest) = some (v, rest)) ∧
    (∀ (vs : List Json) (rest : List Char), jFuelElems vs < fuel →
      pElems fuel (strElemsSep vs ++ ']' :: rest) = some (vs, rest)) ∧
    (∀ (k : String) (v : Json) (rest : List Char), jFuel v < fuel → noNumExt rest = true →
      pField fuel (strField k v ++ rest) = some ((k, v), rest)) ∧
    (∀ (fs : List (String × Json)) (rest : List Char), jFuelFields fs < fuel →
      pFields fuel (strFieldsSep fs ++ '\x7d' :: rest) = some (fs, rest)) := by
  intro fuel
  induction fuel with
  | zero =>
    refine ⟨?_, ?_, ?_, ?_⟩
    · intro v rest hf _; have := jFuel_pos v; omega
    · intro vs rest hf; omega
    · intro k v rest hf _; omega
    · intro fs rest hf; omega
  | succ fuel ih =>
    obtain ⟨ihV, ihE, ihK, ihF⟩ := ih
    refine ⟨?_, ?_, ?_, ?_⟩
    · intro v rest hf hrest
      cases v with
      | null => simp [strJson, nullChars, pVal_null]
      | bool b => cases b with
        | false => simp [strJson, falseChars, pVal_false]
        | true => simp [strJson, trueChars, pVal_true]
      | num n =>
        by_cases hneg : n < 0
        · have hin : strJson (.num n) ++ rest = '-' :: (natChars n.natAbs ++ rest) := by
            simp [strJson, intChars, hneg]
          rw [hin, pVal_dash]
          have hin2 : ('-' :: (natChars n.natAbs ++ rest)) = intChars n ++ rest := by
            simp [intChars, hneg]
          rw [hin2, pNumber_intChars n rest hrest]
        · obtain ⟨c, cs2, hc, hd⟩ := natChars_head n.natAbs
          have hin : strJson (.num n) ++ rest = c :: (cs2 ++ rest) := by
            simp [strJson, intChars, hneg, hc]
          rw [hin, pVal_digit fuel c _ hd]
          have hin2 : (c :: (cs2 ++ rest)) = intChars n ++ rest := by
            simp [intChars, hneg, hc]
          rw [hin2, pNumber_intChars n rest hrest]
      | decimal m e =>
        have hsplit : strJson (.decimal m e) ++ rest
            = (intChars m ++ 'e' :: intChars e) ++ rest := by
          simp [strJson]
        by_cases hneg : m < 0
        · have hin : strJson (.decimal m e) ++ rest
              = '-' :: ((natChars m.natAbs ++ 'e' :: intChars e) ++ rest) := by
            simp [strJson, intChars, hneg]
          rw [hin, pVal_dash]
          have hin2 : ('-' :: ((natChars m.natAbs ++ 'e' :: intChars e) ++ rest))
              = (intChars m ++ 'e' :: intChars e) ++ rest := by
            simp [intChars, hneg]
          rw [hin2, pNumber_decimalChars m e rest hrest]
        · obtain ⟨c, cs2, hc, hd⟩ := natChars_head m.natAbs
          have hin : strJson (.decimal m e) ++ rest
              = c :: ((cs2 ++ 'e' :: intChars e) ++ rest) := by
            simp [strJson, intChars, hneg, hc]
          rw [hin, pVal_digit fuel c _ hd]
          have hin2 : (c :: ((cs2 ++ 'e' :: intChars e) ++ rest))
              = (intChars m ++ 'e' :: intChars e) ++ rest := by
            simp [intChars, hneg, hc]
          rw [hin2, pNumber_decimalChars m e rest hrest]
      | str s =>
        have hin : strJson (.str s) ++ rest = '"' :: (escList s.data ++ '"' :: rest) := by
          simp [strJson]
        rw [hin, pVal_quote, pStrBody_escList]
      | arr l =>
        cases l with
        | nil => simp [strJson, pVal_arr_nil]
        | cons v vs =>
          simp only [jFuel] at hf
          obtain ⟨c, cs2, hc, hlead⟩ := strJson_head v
          obtain ⟨hne1, _⟩ := jsonLead_ne_close hlead
          have hnws := jsonLead_not_ws hlead
          have hin : strJson (.arr (v :: vs)) ++ rest
              = '[' :: (c :: (cs2 ++ (strElemsSep vs ++ ']' :: rest))) := by
            simp [strJson, hc]
          rw [hin, pVal_arr_cons fuel c _ hne1 hnws]
          have hv : pVal fuel (c :: (cs2 ++ (strElemsSep vs ++ ']' :: rest)))
              = some (v, strElemsSep vs ++ ']' :: rest) := by
            have := ihV v (strElemsSep vs ++ ']' :: rest) (by omega) (noNumExt_sep vs rest)
            rw [hc] at this
            simpa using this
          have hp := jFuel_pos v
          rw [hv]
          simp [ihE vs rest (by omega)]
      | obj l =>
        cases l with
        | nil => simp [strJson, pVal_obj_nil]
        | cons kv fs =>
          obtain ⟨k, v⟩ := kv
          simp only [jFuel] at hf
          have hin : strJson (.obj ((k, v) :: fs)) ++ rest
              = '\x7b' :: ('"' :: (escList k.data ++ ('"' :: ':' :: strJson v)
                  ++ (strFieldsSep fs ++ '\x7d' :: rest))) := by
            simp [strJson, strField]
          rw [hin, pVal_obj_cons fuel '"' _ (by decide) (by decide)]
          have hkv : pField fuel ('"' :: (escList k.data ++ ('"' :: ':' :: strJson v)
              ++ (strFieldsSep fs ++ '\x7d' :: rest)))
              = some ((k, v), strFieldsSep fs ++ '\x7d' :: rest) := by
            have := ihK k v (strFieldsSep fs ++ '\x7d' :: rest) (by omega)
              (noNumExt_fsep fs rest)
            simp only [strField] at this
            simpa using this
          have hp := jFuel_pos v
          rw [hkv]
          simp [ihF fs rest (by omega)]
    · intro vs rest hf
      cases vs with
      | nil => simp [strElemsSep, pElems_close]
      | cons v vs =>
        simp only [jFuelElems] at hf
        have hin : strElemsSep (v :: vs) ++ ']' :: rest
            = ',' :: (strJson v ++ (strElemsSep vs ++ ']' :: rest)) := by
          simp [strElemsSep]
        rw [hin, pElems_comma]
        have hp := jFuel_pos v
        rw [ihV v (strElemsSep vs ++ ']' :: rest) (by omega) (noNumExt_sep vs rest)]
        simp [ihE vs rest (by omega)]
    · intro k v rest hkf hrest
      have hin : strField k v ++ rest
          = '"' :: (escList k.data ++ '"' :: (':' :: (strJson v ++ rest))) := by
        simp [strField]
      rw [hin, pField_quote, pStrBody_escList]
      show (match skipWs (':' :: (strJson v ++ rest)) with
        | ':' :: r2 =>
          match pVal fuel r2 with
          | some (v, r3) => some ((String.mk k.data, v), r3)
          | none => none
        | _ => none) = some ((k, v), rest)
      have hcol : skipWs (':' :: (strJson v ++ rest)) = ':' :: (strJson v ++ rest) := rfl
      rw [hcol]
      show (match pVal fuel (strJson v ++ rest) with
        | some (v, r3) => some ((String.mk k.data, v), r3)
        | none => none) = some ((k, v), rest)
      rw [ihV v rest (by omega) hrest]
    · intro fs rest hf
      cases fs with
      | nil => simp [strFieldsSep, pFields_close]
      | cons kv fs =>
        obtain ⟨k, v⟩ := kv
        simp only [jFuelFields] at hf
        have hin : strFieldsSep ((k, v) :: fs) ++ '\x7d' :: rest
            = ',' :: (strField k v ++ (strFieldsSep fs ++ '\x7d' :: rest)) := by
          simp [strFieldsSep]
        rw [hin, pFields_comma]
        have hp := jFuel_pos v
        rw [ihK k v (strFieldsSep fs ++ '\x7d' :: rest) (by omega) (noNumExt_fsep fs rest)]
        simp [ihF fs rest (by omega)]


mutual

theorem jFuel_le_len : (v : Json) → jFuel v ≤ (strJson v).length
  | .null => by simp [jFuel, strJson, nullChars]
  | .bool b => by cases b <;> simp [jFuel, strJson, trueChars, falseChars]
  | .num n => by
      obtain ⟨c, cs, hc, _⟩ := natChars_head n.natAbs
      by_cases h : n < 0 <;> simp [jFuel, strJson, intChars, h, hc]
  | .decimal m e => by
      obtain ⟨c, cs, hc, _⟩ := natChars_head m.natAbs
      by_cases h : m < 0 <;> simp [jFuel, strJson, intChars, h, hc]
  | .str s => by simp [jFuel, strJson]
  | .arr [] => by simp [jFuel, strJson]
  | .arr (v :: vs) => by
      have h1 := jFuel_le_len v
      have h2 := jFuelElems_le_len vs
      simp [jFuel, strJson]
      omega
  | .obj [] => by simp [jFuel, strJson]
  | .obj ((k, v) :: fs) => by
      have h1 := jFuel_le_len v
      have h2 := jFuelFields_le_len fs
      simp [jFuel, strJson, strField]
      omega

theorem jFuelElems_le_len : (vs : List Json) → jFuelElems vs ≤ (strElemsSep vs).length
  | [] => by simp [jFuelElems, strElemsSep]
  | v :: vs => by
      have h1 := jFuel_le_len v
      have h2 := jFuelElems_le_len vs
      simp [jFuelElems, strElemsSep]
      omega

theorem jFuelFields_le_len :
    (fs : List (String × Json)) → jFuelFields fs ≤ (strFieldsSep fs).length
  | [] => by simp [jFuelFields, strFieldsSep]
  | (k, v) :: fs => by
      have h1 := jFuel_le_len v
      have h2 := jFuelFields_le_len fs
      simp [jFuelFields, strFieldsSep, strField]
      omega

end

/-- `JSON.parse` inverts `JSON.stringify` (character-list level). -/
theorem jParseChars_strJson (v : Json) : jParseChars (strJson v) = some v := by
  have h := (parserRound ((strJson v).length + 1)).1 v []
    (by have := jFuel_le_len v; omega) (by rfl)
  simp only [List.append_nil] at h
  simp [jParseChars, h, skipWs]

/-- `JSON.parse` inverts `JSON.stringify` (string level). -/
theorem jParse_strJson (v : Json) : jParse (String.mk (strJson v)) = some v := by
  simpa [jParse] using jParseChars_strJson v

/-! ### port-utils.js: ports and envelopes -/

def minInputPort : Int := 1

def maxInputPort : Int := 19

def outputPort : Int := 20

/-- `isInputPort(port)`. -/
def isInputPort (port : Int) : Bool := minInputPort ≤ port && port ≤ maxInputPort

/-- A Netscript port: the list of messages it currently holds, front of the
queue first.  The queue itself is host-managed; this is its observable
content. -/
abbrev Port := List String

/-- All ports, indexed by port number. -/
abbrev Ports := Int → Port

/-- `NetscriptPort.full()`: the port already holds `cap` messages. -/
def portFull (cap : Nat) (port : Port) : Bool := decide (cap ≤ port.length)

/-- `NetscriptPort.write(v)`: append `v`; if the port then exceeds its
capacity the host shifts off the oldest message (discarded here, as the
scripts ignore `write`'s return value). -/
def portWrite (cap : Nat) (port : Port) (v : String) : Port :=
  let d := port ++ [v]
  if cap < d.length then d.tail else d

/-- The serialized envelope `pushToInputPort` writes:
`JSON.stringify({eventType, reqId, data: JSON.stringify(data)})`. -/
def inputEnvelope (eventType reqId : String) (data : Json) : String :=
  String.mk (strJson (.obj [("eventType", .str eventType), ("reqId", .str reqId),
    ("data", .str (String.mk (strJson data)))]))

/-- `pushToInputPort(ns, eventType, reqId, data, port)`: out-of-range port
numbers only print an error and return (no `getPortHandle`, no `write`),
otherwise the envelope is written to the selected port. -/
def pushToInputPort (cap : Nat) (ports : Ports) (eventType reqId : String) (data : Json)
    (port : Int) : Ports :=
  if ¬ isInputPort port then ports
  else fun p =>
    if p = port then portWrite cap (ports port) (inputEnvelope eventType reqId data)
    else ports p

/-- `pushToOutputPort(ns, payload)`: the returned boolean paired with the
output port's new content. -/
def pushToOutputPort (cap : Nat) (port : Port) (payload : String) : Bool × Port :=
  if portFull cap port then (false, port)
  else (true, portWrite cap port payload)

/-! ### port-utils.js: checkForEvent -/

/-- JavaScript property access `payload.key` on a parsed JSON value:
`none` models `undefined`.  Lookup is last-wins, matching `JSON.parse`'s
treatment of duplicate keys. -/
def jGet (j : Json) (key : String) : Option Json :=
  match j with
  | .obj fields => fields.reverse.lookup key
  | _ => none

/-- JavaScript strict equality `x === s` between a field access result and
a string: true exactly when `x` is that string (never true for
`undefined` or a non-string value). -/
def isStrVal (x : Option Json) (s : String) : Bool :=
  match x with
  | some (.str t) => t == s
  | _ => false

/-- Is the parsed value JavaScript `null` (property access on it throws)? -/
def jIsNull : Json → Bool
  | .null => true
  | _ => false

/-- `JSON.parse(payload.data)`: JavaScript coerces the argument to a string
first, so a string field is parsed as JSON text, while `null`, booleans and
numbers re-parse to themselves.  `undefined`, arrays and objects coerce to
text `JSON.parse` rejects (`"undefined"`, comma-joined elements,
`"[object Object]"`), modelled as a throw; the corner case of an array
whose text happens to be valid JSON (e.g. one number) is out of scope, as
no envelope this code builds carries one. -/
def parseDataField (x : Option Json) : Option Json :=
  match x with
  | some (.str s) => jParse s
  | some .null => some .null
  | some (.bool b) => some (.bool b)
  | some (.num n) => some (.num n)
  | some (.decimal m e) => some (.decimal m e)
  | _ => none

/-- The object `checkForEvent` returns on a match. -/
structure EventResult where
  data : Json
  reqId : Option Json

/-- `checkForEvent(ns, eventType, reqId)` acting on the output port.
`.ok (v, port')` is a normal return (`none` = `undefined`) together with
the port's new content; `.error port'` is a thrown exception
(unparseable head, property access on parsed `null`, or a failing
`JSON.parse(payload.data)` — the last happens after `handle.read()`, so
the head is already gone). -/
def checkForEvent (port : Port) (eventType : String) (reqId : String) :
    Except Port (Option EventResult × Port) :=
  match port with
  | [] => .ok (none, [])
  | m :: rest =>
    match jParse m with
    | none => .error (m :: rest)
    | some payload =>
      if jIsNull payload then .error (m :: rest)
      else if isStrVal (jGet payload "eventType") eventType then
        if reqId ≠ "ANY" ∧ ¬ isStrVal (jGet payload "reqId") reqId then
          .ok (none, m :: rest)
        else
          match parseDataField (jGet payload "data") with
          | some d => .ok (some ⟨d, jGet payload "reqId"⟩, rest)
          | none => .error rest
      else .ok (none, m :: rest)

/-- The port content after a `checkForEvent` call, throw or no throw. -/
def portAfter : Except Port (Option EventResult × Port) → Port
  | .error p => p
  | .ok (_, p) => p

/-- The condition under which `checkForEvent` removes the head message:
the head parses, its `eventType` field is the requested event type, and
the `reqId` argument is `"ANY"` or is the head's `reqId` field. -/
def headMatches (m : String) (eventType reqId : String) : Bool :=
  match jParse m with
  | some p => isStrVal (jGet p "eventType") eventType
      && (reqId == "ANY" || isStrVal (jGet p "reqId") reqId)
  | none => false

/-- C2: if the head of the output port is the envelope `pushToInputPort`
builds for event type `e`, request id `r` and payload `d`, then
`checkForEvent` with event type `e` — called with request id `r`, or with
the default `"ANY"` — removes it and returns an object whose `reqId` is
`r` and whose `data` is exactly the original payload `d`: serializing and
then parsing the envelope is the identity on the payload. -/
theorem checkForEvent_inverts_push (e r : String) (d : Json) (rest : Port) :
    checkForEvent (inputEnvelope e r d :: rest) e r
        = .ok (some ⟨d, some (.str r)⟩, rest) ∧
    checkForEvent (inputEnvelope e r d :: rest) e "ANY"
        = .ok (some ⟨d, some (.str r)⟩, rest) := by
  have henv : jParse (inputEnvelope e r d)
      = some (.obj [("eventType", .str e), ("reqId", .str r),
          ("data", .str (String.mk (strJson d)))]) := jParse_strJson _
  constructor <;>
    simp +decide [checkForEvent, henv, jIsNull, jGet, isStrVal, parseDataField,
      jParse_strJson, List.lookup]

/-- C3: `checkForEvent` examines only the head of the output port, removes
it exactly when the head matches (event type equal, and request id `"ANY"`
or equal), and in the other cases — empty port, event type mismatch,
request id mismatch — returns `undefined` with the port untouched.  The
hypothesis restricts to heads on which the JavaScript does not throw
before comparing (parseable, non-`null`); an unparseable head would throw
inside `JSON.parse` instead of returning. -/
theorem checkForEvent_frame (port : Port) (e q : String)
    (h : port = [] ∨ ∃ p, jParse (port.head!) = some p ∧ p ≠ Json.null) :
    (portAfter (checkForEvent port e q)
        = if port ≠ [] ∧ headMatches (port.head!) e q = true then port.tail else port) ∧
    (¬(port ≠ [] ∧ headMatches (port.head!) e q = true) →
        checkForEvent port e q = .ok (none, port)) := by
  cases port with
  | nil => simp [checkForEvent, portAfter]
  | cons m rest =>
    have hm : (m :: rest).head! = m := rfl
    rcases h with h | ⟨p, hp, hnull⟩
    · simp at h
    · rw [hm] at hp
      rw [hm]
      have hnn : jIsNull p = false := by
        cases p
        · exact absurd rfl hnull
        all_goals rfl
      by_cases hev : isStrVal (jGet p "eventType") e = true
      · by_cases hrq : (q == "ANY" || isStrVal (jGet p "reqId") q) = true
        · have hM : headMatches m e q = true := by simp [headMatches, hp, hev, hrq]
          have hcond : ¬(q ≠ "ANY" ∧ ¬ isStrVal (jGet p "reqId") q = true) := by
            rcases Bool.or_eq_true_iff.mp hrq with h1 | h1
            · intro hc; exact hc.1 (by simpa using h1)
            · intro hc; exact hc.2 h1
          have hC : portAfter (checkForEvent (m :: rest) e q) = rest := by
            simp only [checkForEvent, hp, hnn, Bool.false_eq_true, if_false]
            rw [if_pos hev, if_neg hcond]
            cases hpd : parseDataField (jGet p "data") <;> simp [portAfter]
          refine ⟨?_, ?_⟩
          · rw [hC, if_pos ⟨by simp, hM⟩]; rfl
          · intro hcon; exact absurd ⟨by simp, hM⟩ hcon
        · have hM : headMatches m e q = false := by
            simp only [headMatches, hp]
            simp only [Bool.or_eq_true] at hrq
            push_neg at hrq
            simp [hev, hrq.1, hrq.2]
          have h1 : ¬ q = "ANY" := by
            intro hq; subst hq; apply hrq; simp
          have h2 : isStrVal (jGet p "reqId") q = false := by
            cases hh : isStrVal (jGet p "reqId") q
            · rfl
            · exact absurd (by simp [hh]) hrq
          have hcond : q ≠ "ANY" ∧ ¬ isStrVal (jGet p "reqId") q = true := by
            exact ⟨h1, by simp [h2]⟩
          have hC : checkForEvent (m :: rest) e q = .ok (none, m :: rest) := by
            simp only [checkForEvent, hp, hnn, Bool.false_eq_true, if_false]
            rw [if_pos hev, if_pos hcond]
          rw [hC, hM]
          exact ⟨by simp [portAfter], fun _ => rfl⟩
      · have hM : headMatches m e q = false := by
          simp only [headMatches, hp]
          simp [hev]
        have hC : checkForEvent (m :: rest) e q = .ok (none, m :: rest) := by
          simp only [checkForEvent, hp, hnn, Bool.false_eq_true, if_false]
          rw [if_neg hev]
        rw [hC, hM]
        exact ⟨by simp [portAfter], fun _ => rfl⟩

/-- Witness for C3 at a concrete port: the head message `"4"` parses to the
JSON number `4` (not `null`), its event type does not match, and the port
is untouched. -/
theorem checkForEvent_frame_witness :
    (portAfter (checkForEvent ["4"] "E" "ANY")
        = if ["4"] ≠ ([] : Port) ∧ headMatches ((["4"] : Port).head!) "E" "ANY" = true
          then (["4"] : Port).tail else ["4"]) ∧
    (¬(["4"] ≠ ([] : Port) ∧ headMatches ((["4"] : Port).head!) "E" "ANY" = true) →
        checkForEvent ["4"] "E" "ANY" = .ok (none, ["4"])) :=
  checkForEvent_frame ["4"] "E" "ANY" (Or.inr ⟨Json.num 4, rfl, by simp⟩)

/-- C4: `pushToOutputPort` returns `false` and leaves the output port
unchanged when it is full, and otherwise appends exactly the payload and
returns `true`. -/
theorem pushToOutputPort_spec (cap : Nat) (port : Port) (payload : String) :
    (portFull cap port = true → pushToOutputPort cap port payload = (false, port)) ∧
    (portFull cap port = false → pushToOutputPort cap port payload = (true, port ++ [payload])) := by
  constructor
  · intro h; simp [pushToOutputPort, h]
  · intro h
    have hlen : port.length < cap := by
      simp [portFull] at h; omega
    have hno : ¬ cap < port.length + 1 := by omega
    simp [pushToOutputPort, h, portWrite, hno]

/-- Witness for C4: a full port of capacity 1 rejects the write; a port
with one free slot appends the payload at the back. -/
theorem pushToOutputPort_spec_witness :
    pushToOutputPort 1 ["a"] "b" = (false, ["a"])
      ∧ pushToOutputPort 2 ["a"] "b" = (true, ["a", "b"]) :=
  ⟨(pushToOutputPort_spec 1 ["a"] "b").1 (by decide),
   (pushToOutputPort_spec 2 ["a"] "b").2 (by decide)⟩

/-- C9: for a port number outside the input range `1..19` — in particular
the output port `20` — `pushToInputPort` returns after printing an error,
so no port changes at all. -/
theorem pushToInputPort_out_of_range (cap : Nat) (ports : Ports) (e r : String) (d : Json)
    (port : Int) (h : port < minInputPort ∨ maxInputPort < port) :
    pushToInputPort cap ports e r d port = ports := by
  have hin : isInputPort port = false := by
    simp [isInputPort, minInputPort, maxInputPort] at h ⊢
    omega
  simp [pushToInputPort, hin]

/-- The all-empty port bank, for the C9 witness. -/
def emptyPorts : Ports := fun _ => []

/-- Witness for C9 at the output port number 20. -/
theorem pushToInputPort_out_of_range_witness :
    pushToInputPort 50 emptyPorts "E" "r" .null outputPort = emptyPorts :=
  pushToInputPort_out_of_range 50 emptyPorts "E" "r" .null outputPort (Or.inr (by decide))

/-! ### port-utils.js: createUUID -/

/-- The UUID v4 template `'xxxxxxxx-xxxx-4xxx-yxxx-xxxxxxxxxxxx'`. -/
def uuidTemplate : List Char := "xxxxxxxx-xxxx-4xxx-yxxx-xxxxxxxxxxxx".data

/-- The replacement callback's loop over the template characters: each `x`
or `y` consumes one `Math.random()` value `q`, computes
`r = (dt + q*16) % 16 | 0` — for the non-negative arguments JavaScript
produces, the floor of the value reduced modulo 16 — replaces `x` by
`r.toString(16)` and `y` by `(r & 0x3 | 0x8).toString(16)`, and updates
`dt = Math.floor(dt / 16)`; every other character is kept. -/
def uuidGo (rnd : Nat → Rat) : List Char → Nat → Nat → List Char
  | [], _, _ => []
  | c :: cs, dt, i =>
    if c = 'x' ∨ c = 'y' then
      let r : Nat := ((⌊(dt : Rat) + 16 * rnd i⌋) % 16).toNat
      (if c = 'x' then hexChar r else hexChar (r % 4 + 8)) :: uuidGo rnd cs (dt / 16) (i + 1)
    else c :: uuidGo rnd cs dt i

/-- `createUUID()` for starting clock `dt` and random stream `rnd`. -/
def createUUID (dt : Nat) (rnd : Nat → Rat) : String :=
  String.mk (uuidGo rnd uuidTemplate dt 0)

/-- Lower-case hexadecimal digit predicate. -/
def isLowerHex (c : Char) : Bool := c.isDigit || ('a' ≤ c && c ≤ 'f')

lemma uuidGo_length (rnd : Nat → Rat) : ∀ (tpl : List Char) (dt i : Nat),
    (uuidGo rnd tpl dt i).length = tpl.length := by
  intro tpl
  induction tpl with
  | nil => intro dt i; rfl
  | cons c cs ih =>
    intro dt i
    by_cases h : c = 'x' ∨ c = 'y' <;> simp [uuidGo, h, ih]

lemma uuidGo_get (rnd : Nat → Rat) : ∀ (tpl : List Char) (dt i k : Nat) (c : Char),
    tpl[k]? = some c →
    (c ≠ 'x' ∧ c ≠ 'y' ∧ (uuidGo rnd tpl dt i)[k]? = some c) ∨
    (∃ r : Nat, r < 16 ∧
      ((c = 'x' ∧ (uuidGo rnd tpl dt i)[k]? = some (hexChar r)) ∨
       (c = 'y' ∧ (uuidGo rnd tpl dt i)[k]? = some (hexChar (r % 4 + 8))))) := by
  intro tpl
  induction tpl with
  | nil => intro dt i k c h; simp at h
  | cons c0 cs ih =>
    intro dt i k c h
    cases k with
    | zero =>
      simp only [List.getElem?_cons_zero, Option.some.injEq] at h
      subst h
      by_cases hx : c0 = 'x'
      · subst hx
        refine Or.inr ⟨((⌊(dt : Rat) + 16 * rnd i⌋) % 16).toNat, by omega, Or.inl ⟨rfl, ?_⟩⟩
        simp [uuidGo]
      · by_cases hy : c0 = 'y'
        · subst hy
          refine Or.inr ⟨((⌊(dt : Rat) + 16 * rnd i⌋) % 16).toNat, by omega, Or.inr ⟨rfl, ?_⟩⟩
          simp [uuidGo]
        · refine Or.inl ⟨hx, hy, ?_⟩
          simp [uuidGo, hx, hy]
    | succ k =>
      simp only [List.getElem?_cons_succ] at h
      by_cases hxy : c0 = 'x' ∨ c0 = 'y'
      · have hstep : (uuidGo rnd (c0 :: cs) dt i)[k + 1]?
            = (uuidGo rnd cs (dt / 16) (i + 1))[k]? := by
          simp [uuidGo, hxy]
        rw [hstep]
        exact ih (dt / 16) (i + 1) k c h
      · have hstep : (uuidGo rnd (c0 :: cs) dt i)[k + 1]? = (uuidGo rnd cs dt i)[k]? := by
          simp [uuidGo, hxy]
        rw [hstep]
        exact ih dt i k c h

lemma isLowerHex_hexChar : ∀ r : Nat, r < 16 → isLowerHex (hexChar r) = true := by decide

lemma createUUID_at_lowerHex (dt : Nat) (rnd : Nat → Rat) (k : Nat) (c : Char)
    (htpl : uuidTemplate[k]? = some 'x' ∨ uuidTemplate[k]? = some '4'
        ∨ uuidTemplate[k]? = some 'y')
    (hc : (createUUID dt rnd).data[k]? = some c) : isLowerHex c = true := by
  have hdata : (createUUID dt rnd).data = uuidGo rnd uuidTemplate dt 0 := rfl
  rw [hdata] at hc
  rcases htpl with hx | h4 | hy
  · rcases uuidGo_get rnd uuidTemplate dt 0 k 'x' hx with
      ⟨hne, _, _⟩ | ⟨r, hr, ⟨_, hout⟩ | ⟨habs, _⟩⟩
    · exact absurd rfl hne
    · rw [hout] at hc
      obtain hcc : c = hexChar r := by simpa using hc.symm
      rw [hcc]; exact isLowerHex_hexChar r hr
    · exact absurd habs (by decide)
  · rcases uuidGo_get rnd uuidTemplate dt 0 k '4' h4 with
      ⟨_, _, hout⟩ | ⟨r, hr, ⟨habs, _⟩ | ⟨habs, _⟩⟩
    · rw [hout] at hc
      obtain hcc : c = '4' := by simpa using hc.symm
      rw [hcc]; decide
    · exact absurd habs (by decide)
    · exact absurd habs (by decide)
  · rcases uuidGo_get rnd uuidTemplate dt 0 k 'y' hy with
      ⟨_, hne, _⟩ | ⟨r, hr, ⟨habs, _⟩ | ⟨_, hout⟩⟩
    · exact absurd rfl hne
    · exact absurd habs (by decide)
    · rw [hout] at hc
      obtain hcc : c = hexChar (r % 4 + 8) := by simpa using hc.symm
      rw [hcc]; exact isLowerHex_hexChar _ (by omega)

/-- C10: for every clock value and random stream, `createUUID` returns a
36-character string in 8-4-4-4-12 shape — hyphens exactly at indices 8,
13, 18 and 23 — whose other characters are lower-case hexadecimal digits,
with the character at index 14 equal to `'4'` and the character at index
19 one of `'8'`, `'9'`, `'a'`, `'b'`. -/
theorem createUUID_shape (dt : Nat) (rnd : Nat → Rat) :
    (createUUID dt rnd).length = 36 ∧
    (createUUID dt rnd).data[8]? = some '-' ∧
    (createUUID dt rnd).data[13]? = some '-' ∧
    (createUUID dt rnd).data[18]? = some '-' ∧
    (createUUID dt rnd).data[23]? = some '-' ∧
    (createUUID dt rnd).data[14]? = some '4' ∧
    ((createUUID dt rnd).data[19]? = some '8' ∨ (createUUID dt rnd).data[19]? = some '9' ∨
     (createUUID dt rnd).data[19]? = some 'a' ∨ (createUUID dt rnd).data[19]? = some 'b') ∧
    (∀ (k : Nat) (c : Char), k ≠ 8 → k ≠ 13 → k ≠ 18 → k ≠ 23 →
      (createUUID dt rnd).data[k]? = some c → isLowerHex c = true) := by
  have hdata : (createUUID dt rnd).data = uuidGo rnd uuidTemplate dt 0 := rfl
  have hdash : ∀ k : Nat, uuidTemplate[k]? = some '-' →
      (createUUID dt rnd).data[k]? = some '-' := by
    intro k hk
    rw [hdata]
    rcases uuidGo_get rnd uuidTemplate dt 0 k '-' hk with
      ⟨_, _, hout⟩ | ⟨r, _, ⟨habs, _⟩ | ⟨habs, _⟩⟩
    · exact hout
    · exact absurd habs (by decide)
    · exact absurd habs (by decide)
  refine ⟨?_, hdash 8 (by decide), hdash 13 (by decide), hdash 18 (by decide),
    hdash 23 (by decide), ?_, ?_, ?_⟩
  · show (createUUID dt rnd).data.length = 36
    rw [hdata, uuidGo_length]
    decide
  · rw [hdata]
    rcases uuidGo_get rnd uuidTemplate dt 0 14 '4' (by decide) with
      ⟨_, _, hout⟩ | ⟨r, _, ⟨habs, _⟩ | ⟨habs, _⟩⟩
    · exact hout
    · exact absurd habs (by decide)
    · exact absurd habs (by decide)
  · rw [hdata]
    rcases uuidGo_get rnd uuidTemplate dt 0 19 'y' (by decide) with
      ⟨_, hne, _⟩ | ⟨r, hr, ⟨habs, _⟩ | ⟨_, hout⟩⟩
    · exact absurd rfl hne
    · exact absurd habs (by decide)
    · rw [hout]
      have hcases : ∀ r : Nat, r < 16 →
          (hexChar (r % 4 + 8) = '8' ∨ hexChar (r % 4 + 8) = '9' ∨
           hexChar (r % 4 + 8) = 'a' ∨ hexChar (r % 4 + 8) = 'b') := by decide
      rcases hcases r hr with h | h | h | h <;> simp [h]
  · intro k c h8 h13 h18 h23 hc
    have hk : k < 36 := by
      have hlen : (createUUID dt rnd).data.length = 36 := by
        rw [hdata, uuidGo_length]; decide
      by_contra hge
      rw [List.getElem?_eq_none (by omega)] at hc
      exact Option.noConfusion hc
    have htpl : uuidTemplate[k]? = some 'x' ∨ uuidTemplate[k]? = some '4'
        ∨ uuidTemplate[k]? = some 'y' := by
      have hall : ∀ m : Nat, m < 36 →
          ((m = 8 ∨ m = 13 ∨ m = 18 ∨ m = 23) ∨
            (uuidTemplate[m]? = some 'x' ∨ uuidTemplate[m]? = some '4'
              ∨ uuidTemplate[m]? = some 'y')) := by decide
      rcases hall k hk with (h | h | h | h) | h
      · exact absurd h h8
      · exact absurd h h13
      · exact absurd h h18
      · exact absurd h h23
      · exact h
    exact createUUID_at_lowerHex dt rnd k c htpl hc

/-! ### utils.js: the host interface and server helpers -/

/-- The slice of the host `NS` interface `utils.js` consumes, as abstract
host-supplied functions. -/
structure NS where
  scan : String → List String
  getHostname : String
  fileExists : String → String → Bool
  getServerNumPortsRequired : String → Nat
  getServerMaxRam : String → Rat
  getServerUsedRam : String → Rat

/-- `var homeServer = "home"`. -/
def homeServer : String := "home"

/-- The `cracks` object maps crack file names to crack functions; it is
modelled by its key list in `Object.keys` (insertion) order, the function
values being opaque host calls (recorded as `Event.crackCall` by
`penetrate`). -/
abbrev Cracks := List String

/-- `getNumCracks(ns, cracks)`. -/
def getNumCracks (ns : NS) (cracks : Cracks) : Nat :=
  (cracks.filter (fun file => ns.fileExists file homeServer)).length

/-- `canPenetrate(ns, server, cracks)`. -/
def canPenetrate (ns : NS) (server : String) (cracks : Cracks) : Bool :=
  let numCracks := getNumCracks ns cracks
  let reqPorts := ns.getServerNumPortsRequired server
  decide (numCracks ≥ reqPorts)

/-- C5: `canPenetrate` is true exactly when at least as many crack files
from the `cracks` map exist on `"home"` as the server requires open
ports. -/
theorem canPenetrate_iff (ns : NS) (server : String) (cracks : Cracks) :
    canPenetrate ns server cracks = true ↔
      ns.getServerNumPortsRequired server ≤
        cracks.countP (fun file => ns.fileExists file homeServer) := by
  simp [canPenetrate, getNumCracks, List.countP_eq_length_filter]

/-- Host calls `getRootAccess`/`penetrate` make, in order. -/
inductive Event where
  | print (msg : String)
  | crackCall (file server : String)
  | nuke (server : String)

/-- `penetrate`'s `for` loop over `Object.keys(cracks)`: for each crack
file present on home, look up the crack function and call it on the
server. -/
def penetrateGo (ns : NS) (server : String) : List String → List Event
  | [] => []
  | file :: rest =>
    if ns.fileExists file homeServer then
      .crackCall file server :: penetrateGo ns server rest
    else penetrateGo ns server rest

/-- `penetrate(ns, server, cracks)`, as its trace of host calls. -/
def penetrate (ns : NS) (server : String) (cracks : Cracks) : List Event :=
  .print ("Penetrating " ++ server) :: penetrateGo ns server cracks

/-- `getRootAccess(ns, server, cracks)`, as its trace of host calls. -/
def getRootAccess (ns : NS) (server : String) (cracks : Cracks) : List Event :=
  (if ns.getServerNumPortsRequired server > 0 then penetrate ns server cracks else [])
    ++ [.print ("Gaining root access on " ++ server), .nuke server]

/-- Project the crack-function invocations out of a trace. -/
def crackCallOf (e : Event) : Option (String × String) :=
  match e with
  | .crackCall f s => some (f, s)
  | _ => none

lemma penetrateGo_calls (ns : NS) (server : String) : ∀ keys : List String,
    (penetrateGo ns server keys).filterMap crackCallOf
      = (keys.filter (fun f => ns.fileExists f homeServer)).map (fun f => (f, server)) := by
  intro keys
  induction keys with
  | nil => rfl
  | cons file rest ih =>
    by_cases h : ns.fileExists file homeServer = true <;>
      simp [penetrateGo, List.filter, h, crackCallOf, ih]

/-- C6: `getRootAccess` always issues `ns.nuke(server)`, and it invokes
the crack functions — exactly those whose files exist on home, in key
order — precisely when the server requires more than zero open ports. -/
theorem getRootAccess_spec (ns : NS) (server : String) (cracks : Cracks) :
    Event.nuke server ∈ getRootAccess ns server cracks ∧
    (getRootAccess ns server cracks).filterMap crackCallOf
      = (if 0 < ns.getServerNumPortsRequired server then
          (cracks.filter (fun f => ns.fileExists f homeServer)).map (fun f => (f, server))
        else []) := by
  constructor
  · by_cases h : 0 < ns.getServerNumPortsRequired server <;> simp [getRootAccess, h]
  · by_cases h : 0 < ns.getServerNumPortsRequired server <;>
      simp [getRootAccess, h, penetrate, crackCallOf, penetrateGo_calls]

/-- `hasRam(ns, server, scriptRam, useMax)`. -/
def hasRam (ns : NS) (server : String) (scriptRam : Rat) (useMax : Bool) : Bool :=
  let maxRam := ns.getServerMaxRam server
  let usedRam := ns.getServerUsedRam server
  let ramAvail := if useMax then maxRam else maxRam - usedRam
  decide (ramAvail > scriptRam)

/-- C7: `hasRam` is true exactly when the considered RAM amount — max RAM
when `useMax`, otherwise max minus used — strictly exceeds the script's
requirement; equality yields `false`. -/
theorem hasRam_iff (ns : NS) (server : String) (scriptRam : Rat) (useMax : Bool) :
    (hasRam ns server scriptRam useMax = true ↔
      scriptRam < (if useMax then ns.getServerMaxRam server
        else ns.getServerMaxRam server - ns.getServerUsedRam server)) ∧
    ((if useMax then ns.getServerMaxRam server
        else ns.getServerMaxRam server - ns.getServerUsedRam server) = scriptRam →
      hasRam ns server scriptRam useMax = false) := by
  constructor
  · simp [hasRam]
  · intro h
    simp only [hasRam, h]
    simp

/-- A concrete host for witnesses: max RAM 8, used RAM 3. -/
def exNS : NS where
  scan := fun _ => []
  getHostname := "home"
  fileExists := fun _ _ => true
  getServerNumPortsRequired := fun _ => 0
  getServerMaxRam := fun _ => 8
  getServerUsedRam := fun _ => 3

/-- Witness for C7: available RAM `8 - 3` exactly equals the script's 5,
and `hasRam` answers `false`. -/
theorem hasRam_iff_witness : hasRam exNS "s" 5 false = false :=
  (hasRam_iff exNS "s" 5 false).2 (by simp [exNS]; norm_num)

/-! ### utils.js: getNetworkNodes -/

/-- The own-property names of `Object.prototype` in a standard JavaScript
engine.  For any such key `k`, a fresh object literal `o = \x7b\x7d` has `o[k]`
truthy — an inherited function, or `Object.prototype` itself for
`__proto__` — even though `k` is not an own key of `o`. -/
def protoKeys : List String :=
  ["constructor", "hasOwnProperty", "isPrototypeOf", "propertyIsEnumerable",
   "toLocaleString", "toString", "valueOf", "__defineGetter__",
   "__defineSetter__", "__lookupGetter__", "__lookupSetter__", "__proto__"]

/-- Truthiness of the JavaScript lookup `visited[key]` for the `visited`
object of `getNetworkNodes`, whose own entries map each recorded hostname
to itself.  An own entry is truthy unless the hostname is the empty
string (whose stored value `""` is falsy); failing an own entry, the
lookup walks the prototype chain and is truthy exactly on the
`Object.prototype` property names. -/
def jsTruthy (visited : List String) (key : String) : Bool :=
  (visited.contains key && key != "") || protoKeys.contains key

/-- The assignment `visited[node] = node` on the own-key list: a no-op
for `"__proto__"` (the inherited accessor swallows a non-object value
without creating an own property) and for an already-present key (the
value is overwritten in place, leaving `Object.keys` order unchanged);
otherwise the new own key is appended in insertion order. -/
def markVisited (visited : List String) (node : String) : List String :=
  if node = "__proto__" then visited
  else if visited.contains node then visited
  else visited ++ [node]

/-- The body of `getNetworkNodes`' `while` loop, with explicit fuel (one
unit per iteration; `none` models a loop that has not finished within the
fuel).  `visited` is the insertion-ordered own-key list of the JavaScript
`visited` object, so the final `Object.keys(visited)` is `visited` itself;
the stack's top is the list head.  The `!visited[node]` and
`!visited[child]` guards are JavaScript truthiness tests (`jsTruthy`),
not bare key membership: an `Object.prototype` property name tests as
already visited even when never recorded, and the empty hostname keeps
testing as unvisited even after it has been recorded. -/
def getNetworkNodesGo (scan : String → List String) :
    Nat → List String → List String → Option (List String)
  | 0, visited, stack => if stack.isEmpty then some visited else none
  | fuel + 1, visited, stack =>
    match stack with
    | [] => some visited
    | node :: rest =>
      if !(jsTruthy visited node) then
        let visited2 := markVisited visited node
        let pushes := ((scan node).filter (fun child => !(jsTruthy visited2 child))).reverse
        getNetworkNodesGo scan fuel visited2 (pushes ++ rest)
      else getNetworkNodesGo scan fuel visited rest

/-- `getNetworkNodes(ns)` with the given iteration fuel, scanning from the
current host. -/
def getNetworkNodes (ns : NS) (fuel : Nat) : Option (List String) :=
  getNetworkNodesGo ns.scan fuel [] [ns.getHostname]

/-- The same loop with the truthiness guards replaced by plain key
membership.  On networks of ordinary hostnames it coincides with
`getNetworkNodesGo` (`go_eq_goMem`), and it is the vehicle for the
soundness, completeness and termination arguments. -/
def goMem (scan : String → List String) :
    Nat → List String → List String → Option (List String)
  | 0, visited, stack => if stack.isEmpty then some visited else none
  | fuel + 1, visited, stack =>
    match stack with
    | [] => some visited
    | node :: rest =>
      if !(visited.contains node) then
        let visited2 := visited ++ [node]
        let pushes := ((scan node).filter (fun child => !(visited2.contains child))).reverse
        goMem scan fuel visited2 (pushes ++ rest)
      else goMem scan fuel visited rest

/-- Reachability along `ns.scan` edges. -/
def Reaches (scan : String → List String) (a b : String) : Prop :=
  Relation.ReflTransGen (fun x y => y ∈ scan x) a b

lemma contains_false_of_not {l : List String} {a : String} (h : ¬ l.contains a = true) :
    l.contains a = false := by
  cases hb : l.contains a
  · rfl
  · exact absurd hb h

lemma go_sound (scan : String → List String) (origin : String) : ∀ (fuel : Nat)
    (visited stack out : List String),
    goMem scan fuel visited stack = some out →
    visited.Nodup →
    (∀ v ∈ visited, Reaches scan origin v) →
    (∀ v ∈ stack, Reaches scan origin v) →
    out.Nodup ∧ (∀ v ∈ out, Reaches scan origin v) := by
  intro fuel
  induction fuel with
  | zero =>
    intro visited stack out h hnd hv hs
    by_cases he : stack.isEmpty <;> simp [goMem, he] at h
    subst h
    exact ⟨hnd, hv⟩
  | succ fuel ih =>
    intro visited stack out h hnd hv hs
    match stack with
    | [] =>
      simp [goMem] at h
      subst h
      exact ⟨hnd, hv⟩
    | node :: rest =>
      by_cases hc : visited.contains node = true
      · simp only [goMem, hc, Bool.not_true, Bool.false_eq_true, if_false] at h
        exact ih visited rest out h hnd hv (fun v hv2 => hs v (List.mem_cons_of_mem _ hv2))
      · have hcf := contains_false_of_not hc
        simp only [goMem, hcf, Bool.not_false, if_true] at h
        have hnode : Reaches scan origin node := hs node (List.mem_cons_self node rest)
        refine ih _ _ out h ?_ ?_ ?_
        · simp only [List.nodup_append, List.nodup_cons, List.not_mem_nil, not_false_iff,
            List.nodup_nil, true_and]
          refine ⟨hnd, ?_⟩
          intro a ha hb
          simp only [List.mem_singleton] at hb
          subst hb
          exact hc (List.elem_eq_true_of_mem ha)
        · intro v hv2
          rcases List.mem_append.mp hv2 with h1 | h1
          · exact hv v h1
          · simp only [List.mem_singleton] at h1
            subst h1
            exact hnode
        · intro v hv2
          rcases List.mem_append.mp hv2 with h1 | h1
          · have h2 : v ∈ scan node := List.mem_of_mem_filter (List.mem_reverse.mp h1)
            exact Relation.ReflTransGen.tail hnode h2
          · exact hs v (List.mem_cons_of_mem _ h1)

lemma go_complete (scan : String → List String) : ∀ (fuel : Nat)
    (visited stack out : List String),
    goMem scan fuel visited stack = some out →
    (∀ v ∈ visited, ∀ c ∈ scan v, c ∈ visited ∨ c ∈ stack) →
    visited ⊆ out ∧ stack ⊆ out ∧ (∀ v ∈ out, ∀ c ∈ scan v, c ∈ out) := by
  intro fuel
  induction fuel with
  | zero =>
    intro visited stack out h hcl
    by_cases he : stack.isEmpty <;> simp [goMem, he] at h
    have hse : stack = [] := List.isEmpty_iff.mp he
    subst h
    subst hse
    refine ⟨List.Subset.refl _, by simp, ?_⟩
    intro v hv c hcs
    rcases hcl v hv c hcs with h1 | h1
    · exact h1
    · simp at h1
  | succ fuel ih =>
    intro visited stack out h hcl
    match stack with
    | [] =>
      simp [goMem] at h
      subst h
      refine ⟨List.Subset.refl _, by simp, ?_⟩
      intro v hv c hcs
      rcases hcl v hv c hcs with h1 | h1
      · exact h1
      · simp at h1
    | node :: rest =>
      by_cases hc : visited.contains node = true
      · simp only [goMem, hc, Bool.not_true, Bool.false_eq_true, if_false] at h
        have hmem : node ∈ visited := List.mem_of_elem_eq_true hc
        have hcl2 : ∀ v ∈ visited, ∀ c ∈ scan v, c ∈ visited ∨ c ∈ rest := by
          intro v hv c hcs
          rcases hcl v hv c hcs with h1 | h1
          · exact Or.inl h1
          · rcases List.mem_cons.mp h1 with h2 | h2
            · subst h2
              exact Or.inl hmem
            · exact Or.inr h2
        obtain ⟨hvs, hr, hclosed⟩ := ih visited rest out h hcl2
        refine ⟨hvs, ?_, hclosed⟩
        intro a ha
        rcases List.mem_cons.mp ha with h1 | h1
        · subst h1
          exact hvs hmem
        · exact hr h1
      · have hcf := contains_false_of_not hc
        simp only [goMem, hcf, Bool.not_false, if_true] at h
        have hcl2 : ∀ v ∈ visited ++ [node], ∀ c ∈ scan v,
            c ∈ visited ++ [node]
              ∨ c ∈ ((scan node).filter
                  (fun child => !((visited ++ [node]).contains child))).reverse ++ rest := by
          intro v hv c hcs
          rcases List.mem_append.mp hv with h1 | h1
          · rcases hcl v h1 c hcs with h2 | h2
            · exact Or.inl (List.mem_append_left _ h2)
            · rcases List.mem_cons.mp h2 with h3 | h3
              · subst h3
                exact Or.inl (List.mem_append_right _ (List.mem_singleton.mpr rfl))
              · exact Or.inr (List.mem_append_right _ h3)
          · simp only [List.mem_singleton] at h1
            subst h1
            by_cases hcv : (visited ++ [v]).contains c = true
            · exact Or.inl (List.mem_of_elem_eq_true hcv)
            · refine Or.inr (List.mem_append_left _ ?_)
              rw [List.mem_reverse]
              refine List.mem_filter.mpr ⟨hcs, ?_⟩
              rw [contains_false_of_not hcv]
              rfl
        obtain ⟨hvs, hr, hclosed⟩ := ih _ _ out h hcl2
        have hvis : visited ⊆ out := fun a ha => hvs (List.mem_append_left _ ha)
        refine ⟨hvis, ?_, hclosed⟩
        intro a ha
        rcases List.mem_cons.mp ha with h1 | h1
        · subst h1
          exact hvs (List.mem_append_right _ (List.mem_singleton.mpr rfl))
        · exact hr (List.mem_append_right _ h1)

/-- An ordinary hostname: not the empty string and not an
`Object.prototype` property name.  On ordinary hostnames the truthiness
guards of the loop coincide with plain key membership. -/
def ordinaryHost (v : String) : Bool := !(protoKeys.contains v) && v != ""

lemma jsTruthy_ordinary (visited : List String) {v : String}
    (h : ordinaryHost v = true) : jsTruthy visited v = visited.contains v := by
  simp only [ordinaryHost, Bool.and_eq_true, Bool.not_eq_true'] at h
  unfold jsTruthy
  rw [h.1, h.2, Bool.and_true, Bool.or_false]

lemma go_eq_goMem (scan : String → List String)
    (hscan : ∀ v, ∀ c ∈ scan v, ordinaryHost c = true) : ∀ (fuel : Nat)
    (visited stack : List String), (∀ v ∈ stack, ordinaryHost v = true) →
    getNetworkNodesGo scan fuel visited stack = goMem scan fuel visited stack := by
  intro fuel
  induction fuel with
  | zero => intro visited stack hs; rfl
  | succ fuel ih =>
    intro visited stack hs
    match stack with
    | [] => rfl
    | node :: rest =>
      have hrest : ∀ v ∈ rest, ordinaryHost v = true :=
        fun v hv => hs v (List.mem_cons_of_mem _ hv)
      have hnode := hs node (List.mem_cons_self node rest)
      have ht : jsTruthy visited node = visited.contains node :=
        jsTruthy_ordinary visited hnode
      by_cases hc : visited.contains node = true
      · simp only [getNetworkNodesGo, goMem, ht, hc, Bool.not_true, Bool.false_eq_true,
          if_false]
        exact ih visited rest hrest
      · have hcf := contains_false_of_not hc
        have hne : node ≠ "__proto__" := by
          intro he
          rw [he] at hnode
          exact absurd hnode (by decide)
        have hmark : markVisited visited node = visited ++ [node] := by
          unfold markVisited
          rw [if_neg hne, if_neg hc]
        have hfil : ((scan node).filter (fun child => !(jsTruthy (visited ++ [node]) child)))
            = ((scan node).filter (fun child => !((visited ++ [node]).contains child))) := by
          apply List.filter_congr
          intro c hcm
          rw [jsTruthy_ordinary _ (hscan node c hcm)]
        simp only [getNetworkNodesGo, goMem, ht, hcf, Bool.not_false, if_true]
        rw [hmark, hfil]
        apply ih
        intro v hv
        rcases List.mem_append.mp hv with h1 | h1
        · exact hscan node v (List.mem_of_mem_filter (List.mem_reverse.mp h1))
        · exact hrest v h1

/-- C1 (amended): on a network of ordinary hostnames — none empty, none
an `Object.prototype` property name — whenever the scan loop finishes,
the returned array lists each hostname reachable from the current host
(itself included) exactly once, and contains nothing unreachable.  The
restriction is forced: `getNetworkNodes_spec_counterexample` shows the
unrestricted claim fails on a host named `"toString"`. -/
theorem getNetworkNodes_spec (ns : NS) (fuel : Nat) (out : List String)
    (hhost : ordinaryHost ns.getHostname = true)
    (hscan : ∀ v, ∀ c ∈ ns.scan v, ordinaryHost c = true)
    (h : getNetworkNodes ns fuel = some out) :
    out.Nodup ∧ ∀ v, v ∈ out ↔ Reaches ns.scan ns.getHostname v := by
  have hstack : ∀ v ∈ [ns.getHostname], ordinaryHost v = true := by
    intro v hv
    simp only [List.mem_singleton] at hv
    subst hv
    exact hhost
  rw [getNetworkNodes, go_eq_goMem ns.scan hscan fuel [] [ns.getHostname] hstack] at h
  have hs := go_sound ns.scan ns.getHostname fuel [] [ns.getHostname] out h
    (by simp) (by simp) (by
      intro v hv
      simp only [List.mem_singleton] at hv
      subst hv
      exact Relation.ReflTransGen.refl)
  have hc := go_complete ns.scan fuel [] [ns.getHostname] out h (by simp)
  refine ⟨hs.1, ?_⟩
  intro v
  constructor
  · exact hs.2 v
  · intro hr
    induction hr with
    | refl => exact hc.2.1 (List.mem_singleton.mpr rfl)
    | tail hab hbc ih => exact hc.2.2 _ ih _ hbc

/-! ### utils.js: termination of getNetworkNodes on finite networks -/

/-- The largest neighbour count over a finite universe of hostnames. -/
def maxDeg (scan : String → List String) (univ : List String) : Nat :=
  (univ.map (fun v => (scan v).length)).foldr max 0

lemma maxDeg_le (scan : String → List String) : ∀ (univ : List String) (v : String),
    v ∈ univ → (scan v).length ≤ maxDeg scan univ := by
  intro univ
  induction univ with
  | nil => intro v hv; simp at hv
  | cons u us ih =>
    intro v hv
    rcases List.mem_cons.mp hv with h | h
    · subst h
      exact le_max_left _ _
    · exact le_trans (ih v h) (le_max_right _ _)


lemma filter_drop_mem_length_lt : ∀ (l : List String) (a : String), a ∈ l →
    (l.filter (fun x => !(x == a))).length < l.length := by
  intro l
  induction l with
  | nil => intro a ha; simp at ha
  | cons b bs ih =>
    intro a ha
    by_cases hb : b = a
    · subst hb
      have hf : (!(b == b)) = false := by simp
      rw [List.filter_cons, hf]
      have := List.length_filter_le (fun x => !(x == b)) bs
      simp only [List.length_cons, if_false, Bool.false_eq_true]
      omega
    · have hf : (!(b == a)) = true := by simp [hb]
      rw [List.filter_cons, hf]
      rcases List.mem_cons.mp ha with h1 | h1
      · exact absurd h1.symm hb
      · have := ih a h1
        simp only [List.length_cons, if_true]
        omega

lemma go_total (scan : String → List String) (univ : List String)
    (hclosed : ∀ v ∈ univ, ∀ c ∈ scan v, c ∈ univ) : ∀ (fuel : Nat)
    (visited stack : List String),
    (∀ v ∈ stack, v ∈ univ) →
    stack.length + (univ.filter (fun x => !(visited.contains x))).length
        * (maxDeg scan univ + 1) ≤ fuel →
    (goMem scan fuel visited stack).isSome := by
  intro fuel
  induction fuel with
  | zero =>
    intro visited stack hs hb
    have hse : stack = [] := by
      cases stack with
      | nil => rfl
      | cons a l => simp at hb
    subst hse
    simp [goMem]
  | succ fuel ih =>
    intro visited stack hs hb
    match stack with
    | [] => simp [goMem]
    | node :: rest =>
      by_cases hc : visited.contains node = true
      · simp only [goMem, hc, Bool.not_true, Bool.false_eq_true, if_false]
        apply ih visited rest (fun v hv => hs v (List.mem_cons_of_mem _ hv))
        simp only [List.length_cons] at hb
        omega
      · have hcf := contains_false_of_not hc
        simp only [goMem, hcf, Bool.not_false, if_true]
        have hnu : node ∈ univ := hs node (List.mem_cons_self node rest)
        apply ih
        · intro v hv
          rcases List.mem_append.mp hv with h1 | h1
          · exact hclosed node hnu v (List.mem_of_mem_filter (List.mem_reverse.mp h1))
          · exact hs v (List.mem_cons_of_mem _ h1)
        · have hfilter : univ.filter (fun x => !((visited ++ [node]).contains x))
              = (univ.filter (fun x => !(visited.contains x))).filter
                  (fun x => !(x == node)) := by
            rw [List.filter_filter]
            congr 1
            funext x
            simp [List.contains, Bool.not_or, Bool.and_comm]
            by_cases hx : x = node <;> simp [hx]
          have hnodemem : node ∈ univ.filter (fun x => !(visited.contains x)) :=
            List.mem_filter.mpr ⟨hnu, by rw [hcf]; rfl⟩
          have hlt : (univ.filter (fun x => !((visited ++ [node]).contains x))).length + 1
              ≤ (univ.filter (fun x => !(visited.contains x))).length := by
            rw [hfilter]
            exact filter_drop_mem_length_lt _ node hnodemem
          have hpush : (((scan node).filter
              (fun child => !((visited ++ [node]).contains child))).reverse).length
                ≤ maxDeg scan univ := by
            rw [List.length_reverse]
            exact le_trans (List.length_filter_le _ _) (maxDeg_le scan univ node hnu)
          have hmul : (univ.filter (fun x => !((visited ++ [node]).contains x))).length
                * (maxDeg scan univ + 1) + (maxDeg scan univ + 1)
              ≤ (univ.filter (fun x => !(visited.contains x))).length
                * (maxDeg scan univ + 1) := by
            have h2 := Nat.mul_le_mul_right (maxDeg scan univ + 1) hlt
            rw [Nat.add_mul, Nat.one_mul] at h2
            exact h2
          simp only [List.length_append, List.length_cons] at hb ⊢
          omega

/-- C8 (amended): on every finite network of ordinary hostnames — a
finite universe of hostnames, none empty and none an `Object.prototype`
property name, containing the current host and closed under `ns.scan` —
the scan loop ends after finitely many iterations: some finite fuel
suffices, even though a hostname can be pushed onto the stack several
times before its first pop.  The restriction is forced:
`getNetworkNodes_terminates_counterexample` shows the loop runs forever
on the one-host network whose hostname is the empty string. -/
theorem getNetworkNodes_terminates (ns : NS) (univ : List String)
    (horigin : ns.getHostname ∈ univ)
    (hclosed : ∀ v ∈ univ, ∀ c ∈ ns.scan v, c ∈ univ)
    (hhost : ordinaryHost ns.getHostname = true)
    (hscan : ∀ v, ∀ c ∈ ns.scan v, ordinaryHost c = true) :
    ∃ fuel, (getNetworkNodes ns fuel).isSome := by
  refine ⟨1 + univ.length * (maxDeg ns.scan univ + 1), ?_⟩
  have hstack : ∀ v ∈ [ns.getHostname], ordinaryHost v = true := by
    intro v hv
    simp only [List.mem_singleton] at hv
    subst hv
    exact hhost
  rw [getNetworkNodes,
    go_eq_goMem ns.scan hscan (1 + univ.length * (maxDeg ns.scan univ + 1)) []
      [ns.getHostname] hstack]
  apply go_total ns.scan univ hclosed
  · intro v hv
    simp only [List.mem_singleton] at hv
    subst hv
    exact horigin
  · have hful : (univ.filter (fun x => !(([] : List String).contains x))).length
        = univ.length := by
      simp [List.contains]
    rw [hful]
    simp

/-- A concrete three-host network for the scan witnesses. -/
def exScan : String → List String := fun v =>
  if v = "home" then ["alpha", "beta"]
  else if v = "alpha" then ["home"]
  else if v = "beta" then ["home", "alpha"]
  else []

/-- A concrete host running on that network. -/
def exNet : NS where
  scan := exScan
  getHostname := "home"
  fileExists := fun _ _ => false
  getServerNumPortsRequired := fun _ => 1
  getServerMaxRam := fun _ => 0
  getServerUsedRam := fun _ => 0

lemma exScan_ordinary : ∀ v, ∀ c ∈ exNet.scan v, ordinaryHost c = true := by
  intro v c hc
  show ordinaryHost c = true
  have hc2 : c ∈ exScan v := hc
  unfold exScan at hc2
  split_ifs at hc2 <;> fin_cases hc2 <;> decide

/-- Witness for C1: on the concrete network — all hostnames ordinary —
the loop finishes with `["home", "beta", "alpha"]`, which is
duplicate-free and is exactly the set of reachable hosts. -/
theorem getNetworkNodes_spec_witness :
    (["home", "beta", "alpha"] : List String).Nodup ∧
    (∀ v, v ∈ (["home", "beta", "alpha"] : List String)
      ↔ Reaches exNet.scan exNet.getHostname v) :=
  getNetworkNodes_spec exNet 10 ["home", "beta", "alpha"] (by decide)
    exScan_ordinary (by decide)

/-- Witness for C8 on the concrete network (universe of three ordinary
hosts, closed under `scan`). -/
theorem getNetworkNodes_terminates_witness :
    ∃ fuel, (getNetworkNodes exNet fuel).isSome :=
  getNetworkNodes_terminates exNet ["home", "alpha", "beta"] (by decide) (by decide)
    (by decide) exScan_ordinary

/-- A host whose hostname collides with an `Object.prototype` property
name; its network has no edges at all. -/
def protoNS : NS where
  scan := fun _ => []
  getHostname := "toString"
  fileExists := fun _ _ => false
  getServerNumPortsRequired := fun _ => 0
  getServerMaxRam := fun _ => 0
  getServerUsedRam := fun _ => 0

/-- Counterexample to C1 as stated: starting from a host named
`"toString"`, the lookup `visited["toString"]` finds the inherited
`Object.prototype.toString` function, which is truthy, so the
`!visited[node]` guard fails on the very first pop; the loop ends at once
without recording anything, and `Object.keys(visited)` is the empty
array — omitting the reachable start node itself. -/
theorem getNetworkNodes_spec_counterexample :
    getNetworkNodes protoNS 2 = some [] ∧
    Reaches protoNS.scan protoNS.getHostname protoNS.getHostname ∧
    protoNS.getHostname ∉ ([] : List String) :=
  ⟨by decide, Relation.ReflTransGen.refl, by simp⟩

/-- The finite one-host network whose only hostname is the empty string,
with a self-loop edge. -/
def emptyHostNS : NS where
  scan := fun _ => [""]
  getHostname := ""
  fileExists := fun _ _ => false
  getServerNumPortsRequired := fun _ => 0
  getServerMaxRam := fun _ => 0
  getServerUsedRam := fun _ => 0

lemma emptyHost_go_none : ∀ fuel : Nat,
    getNetworkNodesGo emptyHostNS.scan fuel [""] [""] = none := by
  intro fuel
  induction fuel with
  | zero => rfl
  | succ fuel ih => exact ih

/-- Counterexample to C8 as stated: on the finite network with the single
hostname `""` and `scan("") = [""]`, the assignment `visited[""] = ""`
stores a falsy value, so `!visited[""]` stays true after marking and the
loop pops, re-marks and re-pushes `""` forever: no finite fuel makes it
finish, although the universe `[""]` is finite, contains the origin and
is closed under `scan`. -/
theorem getNetworkNodes_terminates_counterexample :
    emptyHostNS.getHostname ∈ ([""] : List String) ∧
    (∀ v ∈ ([""] : List String), ∀ c ∈ emptyHostNS.scan v, c ∈ ([""] : List String)) ∧
    ¬ ∃ fuel, (getNetworkNodes emptyHostNS fuel).isSome := by
  refine ⟨by decide, by decide, ?_⟩
  rintro ⟨fuel, hf⟩
  have hnone : getNetworkNodes emptyHostNS fuel = none := by
    cases fuel with
    | zero => rfl
    | succ fuel => exact emptyHost_go_none fuel
  rw [hnone] at hf
  simp at hf
